import Mathlib

open List

/-!
# Verification of `repo_flattener` (core.py, exceptions.py)

A shallow embedding of the core of the `repo_flattener` repository:

* `sanitize_filename`, the output-filename derivation (`core.py`, lines 28-39);
* `create_manifest`'s nested-dictionary file tree and its renderer
  (`core.py`, lines 372-417), including the Python dynamic-typing failure
  modes of the reserved `__files__` sentinel key;
* `scan_repository`'s validation and filtered walk (`core.py`, lines 42-96);
* `process_repository`'s validation, per-file copy loop and manifest step
  (`core.py`, lines 245-369);
* the exception classes of `exceptions.py` (error kind plus message/tip).

Filesystem interaction is modelled by an explicit environment (`FSEnv`):
predicates for `os.path.exists` / `os.path.isdir` / `os.access`, a partial
read function for `open(...).read()` (with `errors='replace'` the read either
yields a decoded string or raises), a write-success predicate for
`open(..., 'w')`, a success predicate for `os.makedirs`, and a directory tree
for `os.walk`.  Side effects (directory creation, file writes, per-file read
attempts) are returned as an explicit trace.

Python's unbounded structural recursion over the nested dictionary (and over
`os.walk`) is modelled with an explicit fuel argument; at every use site the
fuel is instantiated strictly above the recursion depth actually reached, and
the correctness lemmas show the fuel bound is never hit.
-/

/-! ## Characters and strings

Python compares strings lexicographically by code point; `clLe` is that
ordering on `List Char`, and `strLe` on `String`. -/

def clLe : List Char → List Char → Bool
  | [], _ => true
  | _ :: _, [] => false
  | a :: as, b :: bs =>
      if a.val.toNat < b.val.toNat then true
      else if b.val.toNat < a.val.toNat then false
      else clLe as bs

def strLe (a b : String) : Bool := clLe a.data b.data

/-- The sort used wherever Python calls `sorted` on strings. -/
def sortStr (l : List String) : List String :=
  List.insertionSort (fun a b => strLe a b = true) l

/-- Python `text.split(c)` for a single-character separator: never returns
the empty list; splitting the empty string gives `[""]`. -/
def splitCh (c : Char) : List Char → List (List Char)
  | [] => [[]]
  | x :: r =>
    if x = c then [] :: splitCh c r
    else
      match splitCh c r with
      | s :: ss => (x :: s) :: ss
      | [] => [[x]]

/-- Python `relative_path.split('/')`. -/
def splitSlash (s : String) : List String :=
  (splitCh '/' s.data).map fun cs => String.mk cs

/-- `' ' * n`. -/
def spaces (n : Nat) : String := String.mk (List.replicate n ' ')

/-- `os.path.join a b` on a POSIX host (as exercised by the code: the second
component is a relative path). -/
def pjoin (a b : String) : String := a ++ "/" ++ b

/-- Join path segments with forward slashes (the shape `os.path.relpath`
produces for files strictly below the root on a POSIX host). -/
def joinSegs : List String → String
  | [] => ""
  | [s] => s
  | s :: rest => s ++ "/" ++ joinSegs rest

/-! ## `sanitize_filename` (core.py, lines 28-39) and the output filename -/

/-- The character class of `re.sub(r'[\\/*?:"<>|]', "_", filename)`. -/
def invalidChars : List Char := ['\\', '/', '*', '?', ':', '"', '<', '>', '|']

/-- `sanitize_filename`: replace every character of the invalid class with
an underscore (`re.sub` with a single-character class is a character map). -/
def sanitize_filename (filename : String) : String :=
  String.mk (filename.data.map fun c => if c ∈ invalidChars then '_' else c)

/-- `relative_path.replace('/', '_')` (core.py, line 311). -/
def replaceSlash (s : String) : String :=
  String.mk (s.data.map fun c => if c = '/' then '_' else c)

/-- The output filename of a relative path:
`sanitize_filename(relative_path.replace('/', '_'))` (core.py, line 311). -/
def outputFilename (relativePath : String) : String :=
  sanitize_filename (replaceSlash relativePath)

/-! ## The manifest file tree (core.py, lines 387-400)

`create_manifest` builds a nested Python dictionary: directory keys map to
sub-dictionaries, and the reserved key `"__files__"` maps to a list of file
names.  `PyVal` is that dynamic value (a Python list of strings or a Python
dict, kept as an association list in insertion order with unique keys). -/

inductive PyVal : Type where
  | vlist (elems : List String) : PyVal
  | vdict (entries : List (String × PyVal)) : PyVal

/-- The two dynamic-typing exceptions the insertion loop can raise:
`TypeError` from indexing a list with a string key, and `AttributeError`
from calling `.append` on a dict. -/
inductive PyErr : Type where
  | typeError : PyErr
  | attributeError : PyErr
deriving DecidableEq

/-- `key in d` / `d[key]` on a Python dict (first match; keys are unique). -/
def pyLookup (es : List (String × PyVal)) (k : String) : Option PyVal :=
  match es with
  | [] => none
  | (k', v) :: rest => if k' = k then some v else pyLookup rest k

/-- `d[key] = v` for a key already present (value replaced in place,
position preserved, matching CPython's dict update). -/
def pyUpdate (es : List (String × PyVal)) (k : String) (v : PyVal) :
    List (String × PyVal) :=
  match es with
  | [] => []
  | (k', v') :: rest =>
      if k' = k then (k', v) :: rest else (k', v') :: pyUpdate rest k v

/-- The body of `create_manifest`'s insertion loop (core.py, lines 389-400)
for one path, already split on `'/'`.  Walking a directory segment whose
current value is a list makes the following subscript raise `TypeError`;
appending a file at a level where `current['__files__']` is a dict raises
`AttributeError` (`dict` has no `.append`). -/
def insertParts (es : List (String × PyVal)) :
    List String → Except PyErr (List (String × PyVal))
  | [] => .ok es
  | [part] =>
      match pyLookup es "__files__" with
      | none => .ok (es ++ [("__files__", .vlist [part])])
      | some (.vlist l) => .ok (pyUpdate es "__files__" (.vlist (l ++ [part])))
      | some (.vdict _) => .error .attributeError
  | part :: rest =>
      match pyLookup es part with
      | none =>
          match insertParts [] rest with
          | .error e => .error e
          | .ok sub => .ok (es ++ [(part, .vdict sub)])
      | some (.vdict sub) =>
          match insertParts sub rest with
          | .error e => .error e
          | .ok sub' => .ok (pyUpdate es part (.vdict sub'))
      | some (.vlist _) => .error .typeError

/-- The `for file_path in all_files` loop: build the whole `file_tree`. -/
def buildFileTree (allFiles : List String) :
    Except PyErr (List (String × PyVal)) :=
  allFiles.foldlM (fun es p => insertParts es (splitSlash p)) []

/-- The `if '__files__' in tree` block of `write_tree` (core.py, lines
406-408): the file lines printed at one level.  When the value under
`"__files__"` is a dict (possible when a *directory* was named
`__files__`), Python's `sorted` iterates the dict's keys. -/
def filesLines (es : List (String × PyVal)) (k : Nat) : List (Nat × String) :=
  match pyLookup es "__files__" with
  | some (.vlist l) => (sortStr l).map fun f => (k, f)
  | some (.vdict sub) => (sortStr (sub.map Prod.fst)).map fun f => (k, f)
  | none => []

/-- The keys iterated by the directory loop of `write_tree` (core.py,
lines 411-412), before sorting. -/
def dirNames (es : List (String × PyVal)) : List String :=
  (es.filter fun e => e.1 ≠ "__files__").map Prod.fst

/-- `write_tree` (core.py, lines 403-414), fuel-bounded: print the file
lines of the level, then each subdirectory name followed by its recursively
rendered contents one level deeper.  Both the file names and the directory
names are sorted at render time.  A directory key bound to a list is
unreachable from `create_manifest` (insertion would already have raised);
it renders nothing here. -/
def writeTreeF : Nat → List (String × PyVal) → Nat → List (Nat × String)
  | 0, _, _ => []
  | fuel + 1, es, k =>
      filesLines es k ++
      (sortStr (dirNames es)).flatMap fun n =>
        (k, n) ::
          (match pyLookup es n with
           | some (.vdict sub) => writeTreeF fuel sub (k + 1)
           | _ => [])

/-- One rendered manifest line: `f"{'    ' * level}{name}\n"`. -/
def encodeLines : List (Nat × String) → String
  | [] => ""
  | (d, n) :: rest => spaces (4 * d) ++ n ++ "\n" ++ encodeLines rest

/-- A fuel bound strictly above the depth of any tree built from
`allFiles` (the tree is at most as deep as its longest path). -/
def manifestFuel (allFiles : List String) : Nat :=
  (allFiles.map fun p => (splitSlash p).length).sum + 1

/-- The text `create_manifest` (core.py, lines 372-417) writes to
`file_manifest.txt`: the header, a blank line, then the rendered tree.
Returns the Python exception instead when the insertion loop raises. -/
def createManifestText (allFiles : List String) : Except PyErr String :=
  match buildFileTree allFiles with
  | .error e => .error e
  | .ok tree =>
      .ok ("Repository structure:\n\n" ++
        encodeLines (writeTreeF (manifestFuel allFiles) tree 0))

instance {ε α : Type} [DecidableEq ε] [DecidableEq α] :
    DecidableEq (Except ε α) := fun x y =>
  match x, y with
  | .ok a, .ok b =>
      if h : a = b then .isTrue (by rw [h])
      else .isFalse (by intro hc; cases hc; exact h rfl)
  | .error a, .error b =>
      if h : a = b then .isTrue (by rw [h])
      else .isFalse (by intro hc; cases hc; exact h rfl)
  | .ok _, .error _ => .isFalse (by intro hc; cases hc)
  | .error _, .ok _ => .isFalse (by intro hc; cases hc)

/-! ## Exceptions (exceptions.py)

Each exception class of `exceptions.py` is one error kind; an exception
instance carries its message and its (possibly defaulted) tip.  The default
tips of `InvalidRepositoryError` are chosen by substring tests on the
message — the kind itself is the same class for all three scanner
validation failures. -/

inductive ErrKind : Type where
  | invalidRepository : ErrKind
  | outputDirectory : ErrKind
  | fileProcessing : ErrKind
  | configuration : ErrKind
  | security : ErrKind
  | resourceLimit : ErrKind
deriving DecidableEq

structure RunError : Type where
  kind : ErrKind
  message : String
  tip : String
deriving DecidableEq

/-- Contiguous-sublist test on character lists. -/
def clInfix (needle : List Char) : List Char → Bool
  | [] => needle.isEmpty
  | c :: rest => needle.isPrefixOf (c :: rest) || clInfix needle rest

/-- Python `needle in hay` on strings. -/
def containsSub (needle hay : String) : Bool :=
  clInfix needle.data hay.data

/-- `InvalidRepositoryError(message)` with the default-tip logic of
`exceptions.py`, lines 28-42. -/
def mkInvalidRepositoryError (message : String) : RunError :=
  { kind := .invalidRepository
    message := message
    tip :=
      if containsSub "does not exist" message then
        "Make sure the path exists and is spelled correctly"
      else if containsSub "not a directory" message then
        "The path should point to a directory, not a file"
      else if containsSub "not readable" message then
        "Make sure you have read permissions for this directory"
      else "Verify the repository path and your access permissions" }

/-- `OutputDirectoryError(message)` with its default tip
(`exceptions.py`, lines 45-50). -/
def mkOutputDirectoryError (message : String) : RunError :=
  { kind := .outputDirectory
    message := message
    tip := "Ensure you have write permissions for the parent directory" }

/-! ## The filesystem environment -/

/-- A directory tree as seen by `os.walk`: regular files and directories
with children. -/
inductive FSNode : Type where
  | file (name : String) : FSNode
  | dir (name : String) (children : List FSNode) : FSNode

/-- The ambient filesystem and OS behaviour: predicates for
`os.path.exists` / `os.path.isdir` / `os.access(..., os.R_OK)`, the result
of reading a file as UTF-8 with `errors='replace'` (`none` = the open/read
raised), whether opening a path for writing succeeds, whether
`os.makedirs` succeeds, and the children of the directory at a path (for
`os.walk`). -/
structure FSEnv : Type where
  pathExists : String → Bool
  isDir : String → Bool
  readable : String → Bool
  readFile : String → Option String
  writeOk : String → Bool
  makedirsOk : String → Bool
  treeAt : String → List FSNode

/-! ## `scan_repository` (core.py, lines 42-96) -/

/-- Default directories to ignore (core.py, lines 20-21). -/
def IGNORE_DIRS : List String :=
  [".git", "node_modules", "__pycache", ".idea", ".vscode",
   "venv", "env", ".env"]

/-- Default file extensions to ignore (core.py, lines 24-25). -/
def IGNORE_EXTS : List String :=
  [".pyc", ".class", ".o", ".so", ".dll", ".exe", ".jar", ".war"]

/-- Merging caller-supplied ignore lists with the defaults
(`ignore_dirs + IGNORE_DIRS` when supplied, else the defaults). -/
def mergeIgnores (user : Option (List String)) (defaults : List String) :
    List String :=
  match user with
  | some l => l ++ defaults
  | none => defaults

/-- Python `name.endswith(ext)` (suffix match on the whole name). -/
def pyEndsWith (name ext : String) : Bool :=
  ext.data.isSuffixOf name.data

/-- The `os.walk` loop of `scan_repository` (core.py, lines 84-94),
fuel-bounded: at each directory prune the subdirectories whose name is in
the merged ignore set before descending, and keep every file whose name
ends with none of the ignored extensions.  Results are segment lists
relative to the walk root; `scan_repository` joins and sorts them. -/
def walkF : Nat → List String → List String → List FSNode →
    List (List String)
  | 0, _, _, _ => []
  | fuel + 1, igD, igE, nodes =>
      nodes.flatMap fun node =>
        match node with
        | .file name =>
            if igE.any (fun e => pyEndsWith name e) then [] else [[name]]
        | .dir d children =>
            if igD.contains d then []
            else (walkF fuel igD igE children).map fun segs => d :: segs

mutual
/-- Size of a filesystem node (strictly above the depth below it). -/
def fsSizeN : FSNode → Nat
  | .file _ => 1
  | .dir _ children => 1 + fsSizeL children
/-- Total size of a node list. -/
def fsSizeL : List FSNode → Nat
  | [] => 0
  | n :: rest => fsSizeN n + fsSizeL rest
end

/-- Fuel strictly above the depth of a node list. -/
def fsFuel (nodes : List FSNode) : Nat := 1 + fsSizeL nodes

/-- `scan_repository` (core.py, lines 42-96): validate the root (exists,
is a directory, is readable — each failure raising
`InvalidRepositoryError` with its own message), merge the ignore rules
with the defaults, walk, and return the relative paths sorted. -/
def scanRepository (env : FSEnv) (repoPath : String)
    (ignoreDirs ignoreExts : Option (List String)) :
    Except RunError (List String) :=
  if env.pathExists repoPath = false then
    .error (mkInvalidRepositoryError
      ("Repository path does not exist: " ++ repoPath))
  else if env.isDir repoPath = false then
    .error (mkInvalidRepositoryError
      ("Repository path is not a directory: " ++ repoPath))
  else if env.readable repoPath = false then
    .error (mkInvalidRepositoryError
      ("Repository path is not readable: " ++ repoPath))
  else
    let igD := mergeIgnores ignoreDirs IGNORE_DIRS
    let igE := mergeIgnores ignoreExts IGNORE_EXTS
    let nodes := env.treeAt repoPath
    .ok (sortStr ((walkF (fsFuel nodes) igD igE nodes).map joinSegs))

/-! ## `process_repository` (core.py, lines 245-369) -/

/-- An observable side effect of a run.  `readAttempt` records that the
per-file loop reached a given source path and tried to open it (the loop's
first fallible action for that path); `fileWrite` records a completed
write of a whole output file. -/
inductive Effect : Type where
  | mkdir (d : String) : Effect
  | readAttempt (p : String) : Effect
  | fileWrite (path content : String) : Effect
deriving DecidableEq

/-- State of the per-file loop: `file_count`, `skipped_count`, and the
trace of effects so far. -/
structure LoopState : Type where
  count : Nat
  skipped : Nat
  effs : List Effect
deriving DecidableEq

/-- One iteration of the per-file loop (core.py, lines 306-326): join the
source path, derive the sanitized output name, read the source (UTF-8 with
replacement; a raise counts the file as skipped), then write the header
line, a blank line and the content; any failure is recorded and the loop
continues. -/
def processOne (env : FSEnv) (repoPath outputDir : String)
    (st : LoopState) (relativePath : String) : LoopState :=
  let srcPath := pjoin repoPath relativePath
  let outPath := pjoin outputDir (outputFilename relativePath)
  match env.readFile srcPath with
  | none =>
      { st with skipped := st.skipped + 1
                effs := st.effs ++ [.readAttempt srcPath] }
  | some content =>
      if env.writeOk outPath then
        { count := st.count + 1
          skipped := st.skipped
          effs := st.effs ++ [.readAttempt srcPath,
            .fileWrite outPath ("// FILE: " ++ relativePath ++ "\n\n" ++ content)] }
      else
        { st with skipped := st.skipped + 1
                  effs := st.effs ++ [.readAttempt srcPath] }

/-- `process_repository` (core.py, lines 245-369).  Validation: root must
exist and be a directory (readability is *not* checked here); then the
output directory is created (failure raises `OutputDirectoryError`).  With
`file_list` given, exactly those paths are processed; otherwise the
repository is walked with the merged ignore rules.  `all_files` — the
manifest's input — is the full processed path list either way.  The
manifest is built after the loop; a Python exception from the sentinel-key
collision propagates out of the whole call.  Returns the effect trace and
either the raised error or `(file_count, skipped_count, manifest_path)`. -/
def processRepository (env : FSEnv) (repoPath outputDir : String)
    (ignoreDirs ignoreExts : Option (List String))
    (fileList : Option (List String)) :
    List Effect × Except (RunError ⊕ PyErr) (Nat × Nat × String) :=
  if env.pathExists repoPath = false then
    ([], .error (.inl (mkInvalidRepositoryError
      ("Repository path does not exist: " ++ repoPath))))
  else if env.isDir repoPath = false then
    ([], .error (.inl (mkInvalidRepositoryError
      ("Repository path is not a directory: " ++ repoPath))))
  else if env.makedirsOk outputDir = false then
    ([], .error (.inl (mkOutputDirectoryError
      ("Cannot create output directory: " ++ outputDir))))
  else
    let igD := mergeIgnores ignoreDirs IGNORE_DIRS
    let igE := mergeIgnores ignoreExts IGNORE_EXTS
    let allFiles :=
      match fileList with
      | some l => l
      | none =>
          let nodes := env.treeAt repoPath
          (walkF (fsFuel nodes) igD igE nodes).map joinSegs
    let st := allFiles.foldl (processOne env repoPath outputDir) ⟨0, 0, []⟩
    match createManifestText allFiles with
    | .error e => (Effect.mkdir outputDir :: st.effs, .error (.inr e))
    | .ok text =>
        let manifestPath := pjoin outputDir "file_manifest.txt"
        (Effect.mkdir outputDir :: st.effs ++ [.fileWrite manifestPath text],
         .ok (st.count, st.skipped, manifestPath))

/-- The source paths the per-file loop attempted to read, in order. -/
def readAttemptsOf (effs : List Effect) : List String :=
  effs.filterMap fun e =>
    match e with
    | .readAttempt p => some p
    | _ => none

/-- The final contents of the output directory: for each output path the
content of the last completed write to it (later writes overwrite earlier
ones). -/
def dirContents (effs : List Effect) (path : String) : Option String :=
  effs.foldl
    (fun acc e =>
      match e with
      | .fileWrite q c => if q = path then some c else acc
      | _ => acc)
    none

/-! ## Parsing the manifest's indentation structure

The round-trip claim asks for the leaf paths recoverable from the manifest
text alone.  A line is read as (indent / 4, name); a line is a directory
exactly when the following line is one level deeper (rendered directories
are never empty), otherwise it is a leaf at the directory stack in
force. -/

/-- Number of leading spaces. -/
def leadCount : List Char → Nat
  | [] => 0
  | c :: r => if c = ' ' then leadCount r + 1 else 0

/-- Read one manifest line as (depth, name). -/
def decodeLine (cs : List Char) : Nat × String :=
  (leadCount cs / 4, String.mk (cs.drop (leadCount cs)))

/-- Recover the leaf paths from decoded (depth, name) lines, keeping the
stack of enclosing directory names.  A line followed by a strictly deeper
line opens a directory; any other line is a leaf. -/
def recover (stack : List String) : List (Nat × String) → List (List String)
  | [] => []
  | [(d, n)] => [stack.take d ++ [n]]
  | (d, n) :: (d', n') :: rest =>
      if d' = d + 1 then recover (stack.take d ++ [n]) ((d', n') :: rest)
      else (stack.take d ++ [n]) :: recover (stack.take d) ((d', n') :: rest)

/-- Parse a manifest text: split into lines, drop the two header lines and
the empty line left by the trailing newline, decode the indentation, and
recover the leaf paths. -/
def parseManifest (text : String) : List (List String) :=
  recover [] ((((splitCh '\n' text.data).drop 2).dropLast).map decodeLine)

/-! ## Specification-side definitions

These are *not* translations of the source; they are the reference
functions and predicates the theorems compare the model against. -/

/-- The leaf paths stored in a manifest tree: a file `f` under the
`"__files__"` list of a level is the path `[f]` there; a directory entry
contributes its name in front of each leaf below it. -/
def leavesEntries : List (String × PyVal) → List (List String)
  | [] => []
  | (n, v) :: rest =>
      (if n = "__files__" then
        match v with
        | .vlist l => l.map fun f => [f]
        | .vdict _ => []
      else
        match v with
        | .vdict sub => (leavesEntries sub).map fun p => n :: p
        | .vlist _ => []) ++ leavesEntries rest

/-- Well-formedness of a manifest tree as `create_manifest` builds it from
sentinel-free paths: keys are unique, `"__files__"` holds a non-empty list
of file names, and every other key holds a non-empty well-formed
sub-dictionary. -/
inductive WFE : List (String × PyVal) → Prop where
  | mk (es : List (String × PyVal))
      (nodup : (es.map Prod.fst).Nodup)
      (hfiles : ∀ v, ("__files__", v) ∈ es → ∃ l, v = .vlist l ∧ l ≠ [])
      (hshape : ∀ n v, (n, v) ∈ es → n ≠ "__files__" → ∃ sub, v = .vdict sub)
      (hne : ∀ n sub, (n, PyVal.vdict sub) ∈ es → n ≠ "__files__" → sub ≠ [])
      (hrec : ∀ n sub, (n, PyVal.vdict sub) ∈ es → n ≠ "__files__" →
        WFE sub) : WFE es

/-- The single-segment paths (files at a level). -/
def singlePath : List String → Option String
  | [x] => some x
  | _ => none

/-- The multi-segment paths, split into first segment and tail. -/
def multiPath : List String → Option (String × List String)
  | x :: y :: r => some (x, y :: r)
  | _ => none

/-- Reference rendering, defined directly on a list of leaf paths: the
single-segment paths are the files of the level, printed sorted; the
first segments of the longer paths are the subdirectories, printed sorted
with their contents (the corresponding tails) one level deeper. -/
def specRenderF : Nat → List (List String) → Nat → List (Nat × String)
  | 0, _, _ => []
  | fuel + 1, ps, k =>
      let files := ps.filterMap singlePath
      let dirs := ps.filterMap multiPath
      (sortStr files).map (fun f => (k, f)) ++
      (sortStr (dirs.map Prod.fst).dedup).flatMap fun n =>
        (k, n) ::
          specRenderF fuel ((dirs.filter fun q => q.1 = n).map Prod.snd) (k + 1)

/-- The file list stored under `"__files__"` (empty when absent). -/
def filesOf (es : List (String × PyVal)) : List String :=
  match pyLookup es "__files__" with
  | some (.vlist l) => l
  | _ => []

/-- The (first-segment, tail) pairs of the leaves below each directory
entry, in entry order. -/
def dirPairsOf (es : List (String × PyVal)) : List (String × List String) :=
  es.flatMap fun e =>
    match e with
    | (n, .vdict sub) =>
        if n = "__files__" then []
        else (leavesEntries sub).map fun p => (n, p)
    | _ => []

/-- The first line of `rest` (if any) is at depth at most `k`. -/
def firstDepthLe (k : Nat) : List (Nat × String) → Prop
  | [] => True
  | (d, _) :: _ => d ≤ k

/-- `FileAt nodes segs`: descending from `nodes` along the directory names
of `segs` reaches a regular file named by the last segment. -/
inductive FileAt : List FSNode → List String → Prop where
  | here {nodes : List FSNode} {name : String}
      (h : FSNode.file name ∈ nodes) : FileAt nodes [name]
  | there {nodes : List FSNode} {children : List FSNode} {segs : List String}
      {d : String} (h : FSNode.dir d children ∈ nodes)
      (hrec : FileAt children segs) : FileAt nodes (d :: segs)

/-- A path is sentinel-free when no non-final slash-separated segment is
the reserved key `__files__`. -/
def sentinelFree (p : String) : Prop :=
  "__files__" ∉ (splitSlash p).dropLast

instance (p : String) : Decidable (sentinelFree p) := by
  unfold sentinelFree; infer_instance

/-- A path is line-clean when none of its segments contains a newline or
starts with a space, so the manifest's line/indentation structure encodes
the segments unambiguously. -/
def lineClean (p : String) : Prop :=
  ∀ s ∈ splitSlash p, '\n' ∉ s.data ∧ s.data.head? ≠ some ' '

instance (p : String) : Decidable (lineClean p) := by
  unfold lineClean; infer_instance

/-- Whether the per-file loop records `relativePath` as skipped: its read
raises, or the read succeeds and the output write fails. -/
def failsB (env : FSEnv) (repoPath outputDir relativePath : String) : Bool :=
  match env.readFile (pjoin repoPath relativePath) with
  | none => true
  | some _ => !env.writeOk (pjoin outputDir (outputFilename relativePath))

/-- The effects one loop iteration appends: the read attempt, then the
completed output write when both the read and the write succeed. -/
def perFileEffs (env : FSEnv) (repoPath outputDir relativePath : String) :
    List Effect :=
  Effect.readAttempt (pjoin repoPath relativePath) ::
    (match env.readFile (pjoin repoPath relativePath) with
     | none => []
     | some content =>
         if env.writeOk (pjoin outputDir (outputFilename relativePath)) then
           [Effect.fileWrite (pjoin outputDir (outputFilename relativePath))
             ("// FILE: " ++ relativePath ++ "\n\n" ++ content)]
         else [])

/-- The relation `sortStr` sorts by. -/
def strRel : String → String → Prop := fun a b => strLe a b = true

instance : DecidableRel strRel := by
  unfold strRel; infer_instance

/-! ## Concrete environments used in witnesses and counterexamples -/

/-- A fully permissive filesystem with empty files and no children. -/
def envAllTrue : FSEnv :=
  { pathExists := fun _ => true
    isDir := fun _ => true
    readable := fun _ => true
    readFile := fun _ => some ""
    writeOk := fun _ => true
    makedirsOk := fun _ => true
    treeAt := fun _ => [] }

/-- The repository root does not exist. -/
def envMissing : FSEnv := { envAllTrue with pathExists := fun _ => false }

/-- The repository root exists but is not a directory. -/
def envNotDir : FSEnv := { envAllTrue with isDir := fun _ => false }

/-- The repository root exists and is a directory but is not readable. -/
def envUnreadable : FSEnv := { envAllTrue with readable := fun _ => false }

/-- Every file reads as the text `body`. -/
def envBody : FSEnv := { envAllTrue with readFile := fun _ => some "body" }

/-- A root whose only child is a regular *file* named `.git`. -/
def envDotGitFile : FSEnv :=
  { envAllTrue with treeAt := fun _ => [FSNode.file ".git"] }

/-- The scenario tree of the specification: `src/main.go`,
`src/.git/config`, `README.md`, `build.o`. -/
def envScenario : FSEnv :=
  { envAllTrue with
    treeAt := fun _ =>
      [FSNode.dir "src"
        [FSNode.file "main.go", FSNode.dir ".git" [FSNode.file "config"]],
       FSNode.file "README.md", FSNode.file "build.o"] }

/-- One unreadable file (`r/bad.txt`) among readable ones. -/
def envOneBad : FSEnv :=
  { envAllTrue with
    readFile := fun p => if p = "r/bad.txt" then none else some "body" }

/-! # Lemmas and claim theorems -/

/-! ## The code-point order on strings -/

theorem clLe_total (a b : List Char) : clLe a b = true ∨ clLe b a = true := by
  induction a generalizing b with
  | nil => left; rfl
  | cons x xs ih =>
      cases b with
      | nil => right; rfl
      | cons y ys =>
          rcases Nat.lt_trichotomy x.val.toNat y.val.toNat with h | h | h
          · left; simp [clLe, h]
          · rcases ih ys with h2 | h2
            · left; simp [clLe, h, h2]
            · right; simp [clLe, h.symm, h2]
          · right; simp [clLe, h]

theorem clLe_trans (a b c : List Char) (h1 : clLe a b = true)
    (h2 : clLe b c = true) : clLe a c = true := by
  induction a generalizing b c with
  | nil => rfl
  | cons x xs ih =>
      cases b with
      | nil => simp [clLe] at h1
      | cons y ys =>
          cases c with
          | nil => simp [clLe] at h2
          | cons z zs =>
              simp only [clLe] at h1 h2 ⊢
              split at h1
              · rename_i hxy
                split at h2
                · rename_i hyz; simp [show x.val.toNat < z.val.toNat by omega]
                · split at h2
                  · simp at h2
                  · rename_i hzy hyz
                    simp [show x.val.toNat < z.val.toNat by omega]
              · split at h1
                · simp at h1
                · rename_i hyx hxy
                  split at h2
                  · rename_i hyz
                    simp [show x.val.toNat < z.val.toNat by omega]
                  · split at h2
                    · simp at h2
                    · rename_i hzy hyz
                      have hxz : ¬ x.val.toNat < z.val.toNat := by omega
                      have hzx : ¬ z.val.toNat < x.val.toNat := by omega
                      simp only [hxz, if_false, hzx]
                      exact ih ys zs h1 h2

theorem clLe_antisymm (a b : List Char) (h1 : clLe a b = true)
    (h2 : clLe b a = true) : a = b := by
  induction a generalizing b with
  | nil =>
      cases b with
      | nil => rfl
      | cons y ys => simp [clLe] at h2
  | cons x xs ih =>
      cases b with
      | nil => simp [clLe] at h1
      | cons y ys =>
          simp only [clLe] at h1 h2
          split at h1
          · rename_i hxy
            simp [show ¬ y.val.toNat < x.val.toNat by omega, hxy] at h2
          · split at h1
            · simp at h1
            · rename_i hyx hxy
              have hx : x = y := Char.ext (UInt32.toNat.inj (by omega))
              subst hx
              simp only [lt_irrefl, if_false] at h2
              rw [ih ys h1 h2]

instance : IsTotal String strRel :=
  ⟨fun a b => clLe_total a.data b.data⟩

instance : IsTrans String strRel :=
  ⟨fun a b c => clLe_trans a.data b.data c.data⟩

theorem string_data_inj {a b : String} (h : a.data = b.data) : a = b := by
  cases a; cases b; exact congrArg String.mk h

instance : IsAntisymm String strRel :=
  ⟨fun a b h1 h2 => string_data_inj (clLe_antisymm a.data b.data h1 h2)⟩

theorem sortStr_eq_insertionSort (l : List String) :
    sortStr l = List.insertionSort strRel l := rfl

theorem sortStr_perm (l : List String) : (sortStr l).Perm l :=
  List.perm_insertionSort _ l

theorem sortStr_sorted (l : List String) : List.Sorted strRel (sortStr l) :=
  List.sorted_insertionSort _ l

/-- Two lists that are permutations of each other sort identically. -/
theorem sortStr_congr {l1 l2 : List String} (h : l1.Perm l2) :
    sortStr l1 = sortStr l2 :=
  List.eq_of_perm_of_sorted
    (((sortStr_perm l1).trans h).trans (sortStr_perm l2).symm)
    (sortStr_sorted l1) (sortStr_sorted l2)

/-! ## C5: filename sanitization -/

/-- **C5.**  Filename sanitization is a deterministic total function: the
output filename of a RelativePath is exactly the character map sending
`'/'` and every character of the invalid class `\ / * ? : " < > |` to
`'_'` and leaving every other character unchanged; it factors as the
slash replacement followed by `sanitize_filename`; and
`sanitize_filename "a/b\c?d" = "a_b_c_d"`. -/
theorem c5_sanitize_total_map (s : String) :
    (outputFilename s).data =
      s.data.map (fun c => if c ∈ invalidChars ∨ c = '/' then '_' else c) ∧
    outputFilename s = sanitize_filename (replaceSlash s) ∧
    sanitize_filename "a/b\\c?d" = "a_b_c_d" := by
  refine ⟨?_, rfl, by decide⟩
  show (s.data.map fun c => if c = '/' then '_' else c).map
      (fun c => if c ∈ invalidChars then '_' else c) = _
  rw [List.map_map]
  apply List.map_congr_left
  intro c _
  by_cases hc : c = '/'
  · subst hc; decide
  · by_cases hm : c ∈ invalidChars
    · simp [Function.comp, hc, hm]
    · simp [Function.comp, hc, hm]

/-! ## C9: the scanner's three validation failures -/

/-- **C9 (counterexample).**  The claim says the three root-validation
failures are distinguishable by error *kind*.  They are not: a missing
root, a non-directory root and an unreadable root all raise the same kind
(`InvalidRepositoryError`); only the message (and defaulted tip) text
differs. -/
theorem c9_counterexample :
    scanRepository envMissing "r" none none =
      .error (mkInvalidRepositoryError "Repository path does not exist: r") ∧
    scanRepository envNotDir "r" none none =
      .error (mkInvalidRepositoryError "Repository path is not a directory: r") ∧
    scanRepository envUnreadable "r" none none =
      .error (mkInvalidRepositoryError "Repository path is not readable: r") ∧
    (mkInvalidRepositoryError "Repository path does not exist: r").kind =
      (mkInvalidRepositoryError "Repository path is not a directory: r").kind ∧
    (mkInvalidRepositoryError "Repository path is not a directory: r").kind =
      (mkInvalidRepositoryError "Repository path is not readable: r").kind ∧
    (mkInvalidRepositoryError "Repository path does not exist: r").message ≠
      (mkInvalidRepositoryError "Repository path is not a directory: r").message := by
  decide

/-- **C9 (amended).**  The scanner's root validation fails for each of the
three violations — missing root, non-directory root, unreadable root —
with the *same* error kind `InvalidRepositoryError`; the three cases are
distinguished only by their message (each carrying its own message text,
from which the default tip is derived), and every error the scanner
returns has that one kind. -/
theorem c9_same_kind_distinct_messages (env : FSEnv) (repoPath : String)
    (igd ige : Option (List String)) :
    (∀ e, scanRepository env repoPath igd ige = .error e →
      e.kind = ErrKind.invalidRepository) ∧
    (env.pathExists repoPath = false →
      scanRepository env repoPath igd ige =
        .error (mkInvalidRepositoryError
          ("Repository path does not exist: " ++ repoPath))) ∧
    (env.pathExists repoPath = true → env.isDir repoPath = false →
      scanRepository env repoPath igd ige =
        .error (mkInvalidRepositoryError
          ("Repository path is not a directory: " ++ repoPath))) ∧
    (env.pathExists repoPath = true → env.isDir repoPath = true →
      env.readable repoPath = false →
      scanRepository env repoPath igd ige =
        .error (mkInvalidRepositoryError
          ("Repository path is not readable: " ++ repoPath))) := by
  unfold scanRepository
  refine ⟨?_, ?_, ?_, ?_⟩
  · intro e he
    split at he
    · cases he; rfl
    · split at he
      · cases he; rfl
      · split at he
        · cases he; rfl
        · cases he
  · intro h; simp [h]
  · intro h1 h2; simp [h1, h2]
  · intro h1 h2 h3; simp [h1, h2, h3]

/-- Witness for C9: the amended theorem applied to the concrete missing-root
environment. -/
theorem c9_witness :
    scanRepository envMissing "r" none none =
      .error (mkInvalidRepositoryError
        ("Repository path does not exist: " ++ "r")) :=
  (c9_same_kind_distinct_messages envMissing "r" none none).2.1 (by decide)

/-! ## C4: fatal validation errors abort before side effects -/

/-- **C4 (counterexample).**  The claim says an unreadable root surfaces an
`InvalidRepository` error from the flatten operation.  It does not:
`process_repository` validates only existence and directory-ness, so an
unreadable root flattens successfully (here: an empty file list runs to
completion and writes the manifest). -/
theorem c4_counterexample :
    envUnreadable.readable "r" = false ∧
    processRepository envUnreadable "r" "out" none none (some []) =
      ([Effect.mkdir "out",
        Effect.fileWrite (pjoin "out" "file_manifest.txt")
          "Repository structure:\n\n"],
       .ok (0, 0, pjoin "out" "file_manifest.txt")) := by
  decide

/-- **C4 (amended).**  A fatal validation error aborts before any side
effect: a missing root, and an existing root that is not a directory,
each surface `InvalidRepositoryError` with an empty effect trace and no
output written; when the root passes those two checks but the output
directory cannot be created, `OutputDirectoryError` is raised, again with
no file written.  (Readability of the root is *not* validated by
`process_repository`; only the scanner checks it.) -/
theorem c4_validation_aborts_early (env : FSEnv) (repoPath outputDir : String)
    (igd ige : Option (List String)) (fl : Option (List String)) :
    (env.pathExists repoPath = false →
      processRepository env repoPath outputDir igd ige fl =
        ([], .error (.inl (mkInvalidRepositoryError
          ("Repository path does not exist: " ++ repoPath))))) ∧
    (env.pathExists repoPath = true → env.isDir repoPath = false →
      processRepository env repoPath outputDir igd ige fl =
        ([], .error (.inl (mkInvalidRepositoryError
          ("Repository path is not a directory: " ++ repoPath))))) ∧
    (env.pathExists repoPath = true → env.isDir repoPath = true →
      env.makedirsOk outputDir = false →
      processRepository env repoPath outputDir igd ige fl =
        ([], .error (.inl (mkOutputDirectoryError
          ("Cannot create output directory: " ++ outputDir))))) := by
  unfold processRepository
  refine ⟨?_, ?_, ?_⟩
  · intro h; simp [h]
  · intro h1 h2; simp [h1, h2]
  · intro h1 h2 h3; simp [h1, h2, h3]

/-- Witness for C4: the amended theorem applied to the concrete
missing-root environment. -/
theorem c4_witness :
    processRepository envMissing "r" "out" none none none =
      ([], .error (.inl (mkInvalidRepositoryError
        ("Repository path does not exist: " ++ "r")))) :=
  (c4_validation_aborts_early envMissing "r" "out" none none none).1 (by decide)

/-! ## Dictionary (association list) lemmas -/

theorem pyLookup_eq_none (es : List (String × PyVal)) (k : String) :
    pyLookup es k = none ↔ k ∉ es.map Prod.fst := by
  induction es with
  | nil => simp [pyLookup]
  | cons e rest ih =>
      obtain ⟨k', v⟩ := e
      by_cases h : k' = k
      · subst h; simp [pyLookup]
      · simp [pyLookup, h, ih, Ne.symm h]

theorem pyLookup_mem {es : List (String × PyVal)} {k : String} {v : PyVal}
    (h : pyLookup es k = some v) : (k, v) ∈ es := by
  induction es with
  | nil => simp [pyLookup] at h
  | cons e rest ih =>
      obtain ⟨k', v'⟩ := e
      by_cases hk : k' = k
      · subst hk
        simp [pyLookup] at h
        subst h; exact List.mem_cons_self _ _
      · simp [pyLookup, hk] at h
        exact List.mem_cons_of_mem _ (ih h)

theorem pyLookup_split {es : List (String × PyVal)} {k : String} {v : PyVal}
    (h : pyLookup es k = some v) :
    ∃ es1 es2, es = es1 ++ (k, v) :: es2 ∧ k ∉ es1.map Prod.fst := by
  induction es with
  | nil => simp [pyLookup] at h
  | cons e rest ih =>
      obtain ⟨k', v'⟩ := e
      by_cases hk : k' = k
      · subst hk
        simp [pyLookup] at h
        subst h
        exact ⟨[], rest, rfl, by simp⟩
      · simp [pyLookup, hk] at h
        obtain ⟨es1, es2, heq, hnot⟩ := ih h
        exact ⟨(k', v') :: es1, es2, by simp [heq], by simp [hnot, Ne.symm hk]⟩

theorem pyUpdate_split {es1 es2 : List (String × PyVal)} {k : String}
    (v w : PyVal) (h : k ∉ es1.map Prod.fst) :
    pyUpdate (es1 ++ (k, v) :: es2) k w = es1 ++ (k, w) :: es2 := by
  induction es1 with
  | nil => simp [pyUpdate]
  | cons e rest ih =>
      obtain ⟨k', v'⟩ := e
      simp only [List.map_cons, List.mem_cons] at h
      push_neg at h
      simp [pyUpdate, Ne.symm h.1, ih h.2]

/-! ## Leaves of a manifest tree -/

/-- The per-entry leaf contribution. -/
def leafBranch (n : String) (v : PyVal) : List (List String) :=
  if n = "__files__" then
    match v with
    | .vlist l => l.map fun f => [f]
    | .vdict _ => []
  else
    match v with
    | .vdict sub => (leavesEntries sub).map fun p => n :: p
    | .vlist _ => []

theorem leavesEntries_nil : leavesEntries [] = [] := by
  simp [leavesEntries]

theorem leavesEntries_cons (n : String) (v : PyVal)
    (rest : List (String × PyVal)) :
    leavesEntries ((n, v) :: rest) = leafBranch n v ++ leavesEntries rest := by
  rw [leavesEntries.eq_def]; rfl

theorem leavesEntries_append (a b : List (String × PyVal)) :
    leavesEntries (a ++ b) = leavesEntries a ++ leavesEntries b := by
  induction a with
  | nil => simp [leavesEntries_nil]
  | cons e rest ih =>
      obtain ⟨n, v⟩ := e
      simp [leavesEntries_cons, ih]

theorem nil_not_mem_leafBranch (n : String) (v : PyVal) :
    [] ∉ leafBranch n v := by
  unfold leafBranch
  split
  · cases v with
    | vlist l => simp
    | vdict sub => simp
  · cases v with
    | vdict sub => simp
    | vlist l => simp

theorem nil_not_mem_leaves (es : List (String × PyVal)) :
    [] ∉ leavesEntries es := by
  induction es with
  | nil => simp [leavesEntries_nil]
  | cons e rest ih =>
      obtain ⟨n, v⟩ := e
      rw [leavesEntries_cons]
      intro hmem
      rcases List.mem_append.mp hmem with hmem | hmem
      · exact nil_not_mem_leafBranch n v hmem
      · exact ih hmem

/-! ## Well-formedness of built trees -/

theorem WFE_nil : WFE [] :=
  WFE.mk [] (by simp) (by simp) (by simp) (by simp) (by simp)

theorem WFE_nodup {es : List (String × PyVal)} (h : WFE es) :
    (es.map Prod.fst).Nodup := by
  cases h; assumption

theorem WFE_files {es : List (String × PyVal)} (h : WFE es) :
    ∀ v, ("__files__", v) ∈ es → ∃ l, v = .vlist l ∧ l ≠ [] := by
  cases h; assumption

theorem WFE_shape {es : List (String × PyVal)} (h : WFE es) :
    ∀ n v, (n, v) ∈ es → n ≠ "__files__" → ∃ sub, v = .vdict sub := by
  cases h; assumption

theorem WFE_sub_ne {es : List (String × PyVal)} (h : WFE es) :
    ∀ n sub, (n, PyVal.vdict sub) ∈ es → n ≠ "__files__" → sub ≠ [] := by
  cases h; assumption

theorem WFE_sub_wf {es : List (String × PyVal)} (h : WFE es) :
    ∀ n sub, (n, PyVal.vdict sub) ∈ es → n ≠ "__files__" → WFE sub := by
  cases h; assumption

theorem WFE_append_file {es : List (String × PyVal)} (h : WFE es) (x : String)
    (hnone : pyLookup es "__files__" = none) :
    WFE (es ++ [("__files__", PyVal.vlist [x])]) := by
  have hkey : "__files__" ∉ es.map Prod.fst := (pyLookup_eq_none es _).mp hnone
  refine WFE.mk _ ?_ ?_ ?_ ?_ ?_
  · rw [List.map_append]
    refine (WFE_nodup h).append (by simp) ?_
    intro a ha hb
    simp only [List.map_cons, List.map_nil, List.mem_singleton] at hb
    subst hb; exact hkey ha
  · intro v hv
    rcases List.mem_append.mp hv with hv | hv
    · exact WFE_files h v hv
    · simp only [List.mem_singleton, Prod.mk.injEq] at hv
      exact ⟨[x], hv.2, by simp⟩
  · intro n v hv hn
    rcases List.mem_append.mp hv with hv | hv
    · exact WFE_shape h n v hv hn
    · simp only [List.mem_singleton, Prod.mk.injEq] at hv
      exact absurd hv.1 hn
  · intro n sub hv hn
    rcases List.mem_append.mp hv with hv | hv
    · exact WFE_sub_ne h n sub hv hn
    · simp at hv
  · intro n sub hv hn
    rcases List.mem_append.mp hv with hv | hv
    · exact WFE_sub_wf h n sub hv hn
    · simp at hv

theorem WFE_append_dir {es : List (String × PyVal)} (h : WFE es)
    {part : String} {sub : List (String × PyVal)}
    (hpart : part ≠ "__files__") (hnone : pyLookup es part = none)
    (hsub : WFE sub) (hsubne : sub ≠ []) :
    WFE (es ++ [(part, PyVal.vdict sub)]) := by
  have hkey : part ∉ es.map Prod.fst := (pyLookup_eq_none es _).mp hnone
  refine WFE.mk _ ?_ ?_ ?_ ?_ ?_
  · rw [List.map_append]
    refine (WFE_nodup h).append (by simp) ?_
    intro a ha hb
    simp only [List.map_cons, List.map_nil, List.mem_singleton] at hb
    subst hb; exact hkey ha
  · intro v hv
    rcases List.mem_append.mp hv with hv | hv
    · exact WFE_files h v hv
    · simp only [List.mem_singleton, Prod.mk.injEq] at hv
      exact absurd hv.1.symm hpart
  · intro n v hv hn
    rcases List.mem_append.mp hv with hv | hv
    · exact WFE_shape h n v hv hn
    · simp only [List.mem_singleton, Prod.mk.injEq] at hv
      exact ⟨sub, hv.2⟩
  · intro n s hv hn
    rcases List.mem_append.mp hv with hv | hv
    · exact WFE_sub_ne h n s hv hn
    · simp only [List.mem_singleton, Prod.mk.injEq, PyVal.vdict.injEq] at hv
      rw [hv.2]; exact hsubne
  · intro n s hv hn
    rcases List.mem_append.mp hv with hv | hv
    · exact WFE_sub_wf h n s hv hn
    · simp only [List.mem_singleton, Prod.mk.injEq, PyVal.vdict.injEq] at hv
      rw [hv.2]; exact hsub

theorem WFE_replace {es1 es2 : List (String × PyVal)} {k : String}
    {v w : PyVal} (h : WFE (es1 ++ (k, v) :: es2))
    (hw1 : k = "__files__" → ∃ l, w = PyVal.vlist l ∧ l ≠ [])
    (hw2 : k ≠ "__files__" →
      ∃ sub, w = PyVal.vdict sub ∧ sub ≠ [] ∧ WFE sub) :
    WFE (es1 ++ (k, w) :: es2) := by
  have hkeys : (es1 ++ (k, w) :: es2).map Prod.fst =
      (es1 ++ (k, v) :: es2).map Prod.fst := by simp
  have hmem : ∀ {n : String} {u : PyVal}, (n, u) ∈ es1 ++ (k, w) :: es2 →
      (n, u) ∈ es1 ++ (k, v) :: es2 ∨ ((n, u) = (k, w)) := by
    intro n u hu
    rcases List.mem_append.mp hu with hu | hu
    · exact Or.inl (List.mem_append.mpr (Or.inl hu))
    · rcases List.mem_cons.mp hu with hu | hu
      · exact Or.inr hu
      · exact Or.inl (List.mem_append.mpr (Or.inr (List.mem_cons_of_mem _ hu)))
  refine WFE.mk _ ?_ ?_ ?_ ?_ ?_
  · rw [hkeys]; exact WFE_nodup h
  · intro u hu
    rcases hmem hu with hu | hu
    · exact WFE_files h u hu
    · cases hu
      exact hw1 rfl
  · intro n u hu hn
    rcases hmem hu with hu | hu
    · exact WFE_shape h n u hu hn
    · cases hu
      obtain ⟨sub, hsub, _, _⟩ := hw2 hn
      exact ⟨sub, hsub⟩
  · intro n s hu hn
    rcases hmem hu with hu | hu
    · exact WFE_sub_ne h n s hu hn
    · simp only [Prod.mk.injEq] at hu
      obtain ⟨hk, hws⟩ := hu
      subst hk
      obtain ⟨sub, hsub, hsubne, _⟩ := hw2 hn
      rw [hsub] at hws
      injection hws with hss
      rw [hss]; exact hsubne
  · intro n s hu hn
    rcases hmem hu with hu | hu
    · exact WFE_sub_wf h n s hu hn
    · simp only [Prod.mk.injEq] at hu
      obtain ⟨hk, hws⟩ := hu
      subst hk
      obtain ⟨sub, hsub, _, hsubwf⟩ := hw2 hn
      rw [hsub] at hws
      injection hws with hss
      rw [hss]; exact hsubwf

/-! ## Correctness of the insertion loop -/

/-- Inserting a sentinel-free non-empty path into a well-formed tree
succeeds, preserves well-formedness, and adds exactly that path to the
leaves. -/
theorem insertParts_ok (parts : List String) :
    ∀ es : List (String × PyVal), WFE es → parts ≠ [] →
      "__files__" ∉ parts.dropLast →
      ∃ es2, insertParts es parts = .ok es2 ∧ WFE es2 ∧
        (leavesEntries es2).Perm (parts :: leavesEntries es) := by
  induction parts with
  | nil => intro es _ hne _; exact absurd rfl hne
  | cons part rest ih =>
      intro es hWF _ hsent
      cases rest with
      | nil =>
          cases hlk : pyLookup es "__files__" with
          | none =>
              refine ⟨es ++ [("__files__", PyVal.vlist [part])], ?_, ?_, ?_⟩
              · simp [insertParts, hlk]
              · exact WFE_append_file hWF part hlk
              · rw [leavesEntries_append]
                have hbr : leavesEntries [("__files__", PyVal.vlist [part])] =
                    [[part]] := by
                  rw [leavesEntries_cons, leavesEntries_nil, leafBranch]
                  simp
                rw [hbr]
                exact List.perm_append_singleton _ _
          | some v =>
              obtain ⟨l, hvl, _⟩ := WFE_files hWF v (pyLookup_mem hlk)
              subst hvl
              obtain ⟨es1, es2', heq, hnot1⟩ := pyLookup_split hlk
              subst heq
              refine ⟨es1 ++ ("__files__", PyVal.vlist (l ++ [part])) :: es2',
                ?_, ?_, ?_⟩
              · simp only [insertParts, hlk]
                rw [pyUpdate_split _ _ hnot1]
              · exact WFE_replace hWF
                  (fun _ => ⟨l ++ [part], rfl, by simp⟩)
                  (fun hk => absurd rfl hk)
              · rw [leavesEntries_append, leavesEntries_append,
                  leavesEntries_cons, leavesEntries_cons]
                rw [show leafBranch "__files__" (PyVal.vlist (l ++ [part])) =
                      (l.map fun f => [f]) ++ [[part]] by
                    rw [leafBranch]; simp,
                  show leafBranch "__files__" (PyVal.vlist l) =
                      l.map fun f => [f] by rw [leafBranch]; simp]
                calc leavesEntries es1 ++
                      ((l.map fun f => [f]) ++ [[part]] ++ leavesEntries es2')
                    = (leavesEntries es1 ++ (l.map fun f => [f])) ++
                        [part] :: leavesEntries es2' := by simp
                  _ ~ [part] :: ((leavesEntries es1 ++ (l.map fun f => [f])) ++
                        leavesEntries es2') := List.perm_middle
                  _ = [part] :: (leavesEntries es1 ++
                        ((l.map fun f => [f]) ++ leavesEntries es2')) := by simp
      | cons r2 rrest =>
          have hsplit : (part :: r2 :: rrest).dropLast =
              part :: (r2 :: rrest).dropLast := rfl
          rw [hsplit] at hsent
          simp only [List.mem_cons, not_or] at hsent
          obtain ⟨hpart0, hsent'⟩ := hsent
          have hpart : part ≠ "__files__" := fun h => hpart0 h.symm
          cases hlk : pyLookup es part with
          | none =>
              obtain ⟨sub, hins, hWFsub, hperm⟩ :=
                ih [] WFE_nil (by simp) hsent'
              rw [leavesEntries_nil] at hperm
              have hsubne : sub ≠ [] := by
                intro h0
                rw [h0, leavesEntries_nil] at hperm
                simpa using hperm.length_eq
              refine ⟨es ++ [(part, PyVal.vdict sub)], ?_, ?_, ?_⟩
              · simp [insertParts, hlk, hins]
              · exact WFE_append_dir hWF hpart hlk hWFsub hsubne
              · rw [leavesEntries_append]
                have hbr : leavesEntries [(part, PyVal.vdict sub)] =
                    (leavesEntries sub).map fun p => part :: p := by
                  rw [leavesEntries_cons, leavesEntries_nil, leafBranch]
                  simp [hpart]
                rw [hbr]
                calc leavesEntries es ++ (leavesEntries sub).map (part :: ·)
                    ~ leavesEntries es ++ [part :: r2 :: rrest] :=
                      List.Perm.append_left _ (by simpa using hperm.map (part :: ·))
                  _ ~ (part :: r2 :: rrest) :: leavesEntries es :=
                      List.perm_append_singleton _ _
          | some v =>
              cases v with
              | vlist l =>
                  obtain ⟨sub, hsub⟩ :=
                    WFE_shape hWF part _ (pyLookup_mem hlk) hpart
                  cases hsub
              | vdict sub =>
                  have hWFsub : WFE sub :=
                    WFE_sub_wf hWF part sub (pyLookup_mem hlk) hpart
                  obtain ⟨sub', hins, hWFsub', hperm⟩ :=
                    ih sub hWFsub (by simp) hsent'
                  have hsubne' : sub' ≠ [] := by
                    intro h0
                    rw [h0, leavesEntries_nil] at hperm
                    simpa using hperm.length_eq
                  obtain ⟨es1, es2', heq, hnot1⟩ := pyLookup_split hlk
                  subst heq
                  refine ⟨es1 ++ (part, PyVal.vdict sub') :: es2', ?_, ?_, ?_⟩
                  · simp only [insertParts, hlk, hins]
                    rw [pyUpdate_split _ _ hnot1]
                  · exact WFE_replace hWF (fun hk => absurd hk hpart)
                      (fun _ => ⟨sub', rfl, hsubne', hWFsub'⟩)
                  · rw [leavesEntries_append, leavesEntries_append,
                      leavesEntries_cons, leavesEntries_cons]
                    rw [show leafBranch part (PyVal.vdict sub') =
                          (leavesEntries sub').map (part :: ·) by
                        rw [leafBranch]; simp [hpart],
                      show leafBranch part (PyVal.vdict sub) =
                          (leavesEntries sub).map (part :: ·) by
                        rw [leafBranch]; simp [hpart]]
                    have hmap : ((leavesEntries sub').map (part :: ·)).Perm
                        ((part :: r2 :: rrest) ::
                          (leavesEntries sub).map (part :: ·)) := by
                      simpa using hperm.map (part :: ·)
                    calc leavesEntries es1 ++
                          ((leavesEntries sub').map (part :: ·) ++
                            leavesEntries es2')
                        ~ leavesEntries es1 ++
                            (((part :: r2 :: rrest) ::
                              (leavesEntries sub).map (part :: ·)) ++
                              leavesEntries es2') :=
                          List.Perm.append_left _ (hmap.append_right _)
                      _ = leavesEntries es1 ++ (part :: r2 :: rrest) ::
                            ((leavesEntries sub).map (part :: ·) ++
                              leavesEntries es2') := by simp
                      _ ~ (part :: r2 :: rrest) :: (leavesEntries es1 ++
                            ((leavesEntries sub).map (part :: ·) ++
                              leavesEntries es2')) := List.perm_middle

theorem splitCh_ne_nil (c : Char) (l : List Char) : splitCh c l ≠ [] := by
  cases l with
  | nil => simp [splitCh]
  | cons x r =>
      rw [splitCh]
      split
      · simp
      · split <;> simp

theorem splitSlash_ne_nil (s : String) : splitSlash s ≠ [] := by
  unfold splitSlash
  intro h
  exact splitCh_ne_nil '/' s.data (List.map_eq_nil_iff.mp h)

theorem buildFold_ok (paths : List String) :
    (∀ p ∈ paths, sentinelFree p) → ∀ es0 : List (String × PyVal), WFE es0 →
      ∃ es, (paths.foldlM (fun es p => insertParts es (splitSlash p)) es0 :
          Except PyErr _) = .ok es ∧ WFE es ∧
        (leavesEntries es).Perm (paths.map splitSlash ++ leavesEntries es0) := by
  induction paths with
  | nil =>
      intro _ es0 h0
      exact ⟨es0, rfl, h0, by simp⟩
  | cons p rest ih =>
      intro hsent es0 h0
      obtain ⟨es1, hins, hWF1, hperm1⟩ :=
        insertParts_ok (splitSlash p) es0 h0 (splitSlash_ne_nil p)
          (hsent p (List.mem_cons_self p rest))
      obtain ⟨es, hfold, hWF, hperm⟩ :=
        ih (fun q hq => hsent q (List.mem_cons_of_mem p hq)) es1 hWF1
      refine ⟨es, ?_, hWF, ?_⟩
      · rw [List.foldlM_cons, hins]
        simpa using hfold
      · calc leavesEntries es
            ~ rest.map splitSlash ++ leavesEntries es1 := hperm
          _ ~ rest.map splitSlash ++
              (splitSlash p :: leavesEntries es0) :=
            List.Perm.append_left _ hperm1
          _ ~ splitSlash p :: (rest.map splitSlash ++ leavesEntries es0) :=
            List.perm_middle
          _ = (p :: rest).map splitSlash ++ leavesEntries es0 := by simp

/-- Building the tree from sentinel-free paths succeeds, yields a
well-formed tree, and its leaves are exactly the split input paths. -/
theorem buildFileTree_ok (paths : List String)
    (hsent : ∀ p ∈ paths, sentinelFree p) :
    ∃ es, buildFileTree paths = .ok es ∧ WFE es ∧
      (leavesEntries es).Perm (paths.map splitSlash) := by
  obtain ⟨es, h1, h2, h3⟩ := buildFold_ok paths hsent [] WFE_nil
  exact ⟨es, h1, h2, by simpa [leavesEntries_nil] using h3⟩

/-! ## The per-file loop -/

/-- Full characterization of the per-file loop fold: the success count
adds one per non-failing path, the skipped count one per failing path,
and the effect trace extends by each path's effects in input order. -/
theorem loop_foldl (env : FSEnv) (r o : String) (paths : List String) :
    ∀ st : LoopState,
      paths.foldl (processOne env r o) st =
        ⟨st.count + paths.countP (fun p => !(failsB env r o p)),
         st.skipped + paths.countP (failsB env r o),
         st.effs ++ paths.flatMap (perFileEffs env r o)⟩ := by
  induction paths with
  | nil => intro st; simp
  | cons p rest ih =>
      intro st
      rw [List.foldl_cons, ih]
      cases hr : env.readFile (pjoin r p) with
      | none =>
          simp [processOne, hr, failsB, perFileEffs, List.countP_cons,
            LoopState.mk.injEq, List.append_assoc]
          omega
      | some content =>
          cases hw : env.writeOk (pjoin o (outputFilename p)) with
          | true =>
              simp [processOne, hr, hw, failsB, perFileEffs,
                List.countP_cons, LoopState.mk.injEq, List.append_assoc]
              omega
          | false =>
              simp [processOne, hr, hw, failsB, perFileEffs,
                List.countP_cons, LoopState.mk.injEq, List.append_assoc]
              omega

/-- The read attempts of the loop's effects are exactly the joined source
paths, in input order. -/
theorem readAttempts_loop (env : FSEnv) (r o : String) (paths : List String) :
    readAttemptsOf (paths.flatMap (perFileEffs env r o)) =
      paths.map (pjoin r) := by
  induction paths with
  | nil => simp [readAttemptsOf]
  | cons p rest ih =>
      rw [List.flatMap_cons]
      unfold readAttemptsOf at ih ⊢
      rw [List.filterMap_append, ih]
      have hhead : (perFileEffs env r o p).filterMap (fun e =>
          match e with
          | .readAttempt q => some q
          | _ => none) = [pjoin r p] := by
        unfold perFileEffs
        cases hr : env.readFile (pjoin r p) with
        | none => simp
        | some content =>
            cases hw : env.writeOk (pjoin o (outputFilename p)) <;> simp [hw]
      rw [hhead]
      rfl

/-- Every path is counted exactly once: success and skip counts sum to
the number of paths. -/
theorem countP_fails_total (env : FSEnv) (r o : String) (paths : List String) :
    paths.countP (fun p => !(failsB env r o p)) +
      paths.countP (failsB env r o) = paths.length := by
  induction paths with
  | nil => simp
  | cons p rest ih =>
      simp only [List.countP_cons, List.length_cons]
      cases h : failsB env r o p <;> simp [h] <;> omega

/-- A successful run in `file_list` mode, fully characterized: validation
passes, each path is processed in input order, and the manifest built from
the *input* list is written last. -/
theorem processRepository_ok (env : FSEnv) (r o : String)
    (igd ige : Option (List String)) (paths : List String)
    (h1 : env.pathExists r = true) (h2 : env.isDir r = true)
    (h3 : env.makedirsOk o = true)
    {text : String} (hmani : createManifestText paths = .ok text) :
    processRepository env r o igd ige (some paths) =
      (Effect.mkdir o :: (paths.flatMap (perFileEffs env r o)) ++
         [Effect.fileWrite (pjoin o "file_manifest.txt") text],
       .ok (paths.countP (fun p => !(failsB env r o p)),
            paths.countP (failsB env r o),
            pjoin o "file_manifest.txt")) := by
  unfold processRepository
  simp only [h1, h2, h3]
  rw [loop_foldl]
  simp [hmani]

/-- **C1.**  With a valid root, a creatable output directory and a
sentinel-free input list, the flatten operation processes every path in
input order (one read attempt each, in order), returns counts with
`successCount + failureCount = len(paths)` (each path counted exactly
once: the failures are exactly the paths whose read or write fails, and
no failure stops the loop), and in particular when exactly one path fails
the counts are `(len(paths) - 1, 1)`. -/
theorem c1_counts_and_continues (env : FSEnv) (r o : String)
    (paths : List String)
    (h1 : env.pathExists r = true) (h2 : env.isDir r = true)
    (h3 : env.makedirsOk o = true)
    (h4 : ∀ p ∈ paths, sentinelFree p) :
    ∃ effs text c s,
      createManifestText paths = .ok text ∧
      processRepository env r o none none (some paths) =
        (effs, .ok (c, s, pjoin o "file_manifest.txt")) ∧
      c + s = paths.length ∧
      readAttemptsOf effs = paths.map (pjoin r) ∧
      c = paths.countP (fun p => !(failsB env r o p)) ∧
      s = paths.countP (failsB env r o) ∧
      (paths.countP (failsB env r o) = 1 → s = 1 ∧ c = paths.length - 1) := by
  obtain ⟨es, hbuild, _, _⟩ := buildFileTree_ok paths h4
  have hmani : createManifestText paths =
      .ok ("Repository structure:\n\n" ++
        encodeLines (writeTreeF (manifestFuel paths) es 0)) := by
    unfold createManifestText; rw [hbuild]
  have htot := countP_fails_total env r o paths
  refine ⟨Effect.mkdir o :: (paths.flatMap (perFileEffs env r o)) ++
      [Effect.fileWrite (pjoin o "file_manifest.txt")
        ("Repository structure:\n\n" ++
          encodeLines (writeTreeF (manifestFuel paths) es 0))],
    "Repository structure:\n\n" ++
      encodeLines (writeTreeF (manifestFuel paths) es 0),
    paths.countP (fun p => !(failsB env r o p)),
    paths.countP (failsB env r o),
    hmani,
    processRepository_ok env r o none none paths h1 h2 h3 hmani,
    htot, ?_, rfl, rfl, ?_⟩
  · have h := readAttempts_loop env r o paths
    unfold readAttemptsOf at h ⊢
    simp only [List.filterMap_append, List.filterMap_cons, h]
    simp
  · intro hone
    exact ⟨hone, by omega⟩

/-- Witness for C1: the one-unreadable-file scenario, three paths of which
exactly `bad.txt` fails to read. -/
theorem c1_witness :
    ∃ effs text c s,
      createManifestText ["a.txt", "bad.txt", "b/c.txt"] = .ok text ∧
      processRepository envOneBad "r" "out" none none
          (some ["a.txt", "bad.txt", "b/c.txt"]) =
        (effs, .ok (c, s, pjoin "out" "file_manifest.txt")) ∧
      c + s = (["a.txt", "bad.txt", "b/c.txt"] : List String).length ∧
      readAttemptsOf effs =
        (["a.txt", "bad.txt", "b/c.txt"] : List String).map (pjoin "r") ∧
      c = (["a.txt", "bad.txt", "b/c.txt"] : List String).countP
        (fun p => !(failsB envOneBad "r" "out" p)) ∧
      s = (["a.txt", "bad.txt", "b/c.txt"] : List String).countP
        (failsB envOneBad "r" "out") ∧
      ((["a.txt", "bad.txt", "b/c.txt"] : List String).countP
          (failsB envOneBad "r" "out") = 1 →
        s = 1 ∧ c = (["a.txt", "bad.txt", "b/c.txt"] : List String).length - 1) :=
  c1_counts_and_continues envOneBad "r" "out" ["a.txt", "bad.txt", "b/c.txt"]
    rfl rfl rfl (by decide)

/-! ## C6: the scanner's walk -/

/-- Soundness of the pruned walk: every returned segment path is
non-empty, reaches a regular file in the tree, has no *directory* segment
in the ignore set (pruned subtrees are never entered), and its file name
ends with no ignored extension. -/
theorem walkF_sound (fuel : Nat) (igD igE : List String) :
    ∀ (nodes : List FSNode) (segs : List String),
      segs ∈ walkF fuel igD igE nodes →
      segs ≠ [] ∧ FileAt nodes segs ∧
      (∀ s ∈ segs.dropLast, s ∉ igD) ∧
      (∀ e ∈ igE, pyEndsWith (segs.getLast?.getD "") e = false) := by
  induction fuel with
  | zero => intro nodes segs h; simp [walkF] at h
  | succ fuel ih =>
      intro nodes segs h
      rw [walkF] at h
      rcases List.mem_flatMap.mp h with ⟨node, hnode, hmem⟩
      cases node with
      | file name =>
          dsimp only at hmem
          by_cases hext : (igE.any fun e => pyEndsWith name e) = true
          · simp [hext] at hmem
          · rw [if_neg hext] at hmem
            rw [List.mem_singleton] at hmem
            subst hmem
            refine ⟨by simp, FileAt.here hnode, by simp, ?_⟩
            intro e he
            have := List.any_eq_false.mp (Bool.not_eq_true _ ▸ hext)
            simpa using this e he
      | dir d children =>
          dsimp only at hmem
          by_cases hd : igD.contains d = true
          · rw [if_pos hd] at hmem
            simp at hmem
          · rw [if_neg hd] at hmem
            rw [List.mem_map] at hmem
            obtain ⟨segs', hsegs', rfl⟩ := hmem
            obtain ⟨hne, hat, hdirs, hext⟩ := ih children segs' hsegs'
            have hd' : d ∉ igD := by
              intro hmem2
              exact hd (by simpa using hmem2)
            refine ⟨by simp, FileAt.there hnode hat, ?_, ?_⟩
            · cases segs' with
              | nil => exact absurd rfl hne
              | cons x xs =>
                  intro s hs
                  rw [show (d :: x :: xs).dropLast = d :: (x :: xs).dropLast
                    from rfl] at hs
                  rcases List.mem_cons.mp hs with hs | hs
                  · subst hs; exact hd'
                  · exact hdirs s hs
            · cases segs' with
              | nil => exact absurd rfl hne
              | cons x xs =>
                  intro e he
                  rw [List.getLast?_cons_cons]
                  exact hext e he

/-- **C6 (amended).**  A successful scan returns a lexicographically
sorted list of relative paths, each of which joins a non-empty segment
sequence reaching a regular file strictly below the root, whose
*non-final* (directory) segments avoid the merged ignored-directory set
at every depth, and whose file name ends with no merged ignored extension
(whole-name suffix match, so rule `.gz` also excludes `.tar.gz`).
(The original claim — *no* segment equal to an ignored directory name —
fails for a regular file named like an ignored directory.) -/
theorem c6_scan_sound (env : FSEnv) (repoPath : String)
    (igd ige : Option (List String)) (l : List String)
    (h : scanRepository env repoPath igd ige = .ok l) :
    List.Sorted strRel l ∧
    ∀ q ∈ l, ∃ segs, q = joinSegs segs ∧ segs ≠ [] ∧
      FileAt (env.treeAt repoPath) segs ∧
      (∀ s ∈ segs.dropLast, s ∉ mergeIgnores igd IGNORE_DIRS) ∧
      (∀ e ∈ mergeIgnores ige IGNORE_EXTS,
        pyEndsWith (segs.getLast?.getD "") e = false) := by
  unfold scanRepository at h
  split at h
  · cases h
  · split at h
    · cases h
    · split at h
      · cases h
      · injection h with h
        subst h
        constructor
        · exact sortStr_sorted _
        · intro q hq
          have hq' := (sortStr_perm _).subset hq
          rcases List.mem_map.mp hq' with ⟨segs, hsegs, rfl⟩
          obtain ⟨hne, hat, hdirs, hext⟩ :=
            walkF_sound _ _ _ _ segs hsegs
          exact ⟨segs, rfl, hne, hat, hdirs, hext⟩

/-- Witness for C6: the specification's scenario tree
(`src/main.go`, `src/.git/config`, `README.md`, `build.o`) with default
ignore rules scans to exactly `["README.md", "src/main.go"]`. -/
theorem c6_witness :
    List.Sorted strRel ["README.md", "src/main.go"] ∧
    ∀ q ∈ ["README.md", "src/main.go"], ∃ segs, q = joinSegs segs ∧
      segs ≠ [] ∧ FileAt (envScenario.treeAt "r") segs ∧
      (∀ s ∈ segs.dropLast, s ∉ mergeIgnores none IGNORE_DIRS) ∧
      (∀ e ∈ mergeIgnores none IGNORE_EXTS,
        pyEndsWith (segs.getLast?.getD "") e = false) :=
  c6_scan_sound envScenario "r" none none ["README.md", "src/main.go"]
    (by decide)

/-- **C6 (counterexample).**  The claim as stated — every returned
RelativePath contains *no segment* equal to any merged ignored-directory
name — is false: a regular *file* named `.git` is not pruned (pruning
applies to directories only) and not extension-filtered, so the scan
returns the path `.git`, whose single segment is in the merged
ignored-directory set. -/
theorem c6_counterexample :
    scanRepository envDotGitFile "r" none none = .ok [".git"] ∧
    ".git" ∈ mergeIgnores none IGNORE_DIRS ∧
    splitSlash ".git" = [".git"] := by decide

/-! ## Decomposing the leaves of a well-formed tree -/

theorem WFE_tail {e : String × PyVal} {rest : List (String × PyVal)}
    (h : WFE (e :: rest)) : WFE rest := by
  refine WFE.mk _ ?_ ?_ ?_ ?_ ?_
  · exact (by simpa using WFE_nodup h : _ ∧ _).2
  · intro v hv; exact WFE_files h v (List.mem_cons_of_mem _ hv)
  · intro n v hv hn; exact WFE_shape h n v (List.mem_cons_of_mem _ hv) hn
  · intro n s hv hn; exact WFE_sub_ne h n s (List.mem_cons_of_mem _ hv) hn
  · intro n s hv hn; exact WFE_sub_wf h n s (List.mem_cons_of_mem _ hv) hn

theorem filesOf_none {es : List (String × PyVal)}
    (h : pyLookup es "__files__" = none) : filesOf es = [] := by
  unfold filesOf; rw [h]

/-- The single-segment leaves of a well-formed tree are exactly its
`"__files__"` list. -/
theorem singles_leaves {es : List (String × PyVal)} (h : WFE es) :
    (leavesEntries es).filterMap singlePath = filesOf es := by
  induction es with
  | nil => simp [leavesEntries_nil, filesOf, pyLookup]
  | cons e rest ih =>
      obtain ⟨n, v⟩ := e
      rw [leavesEntries_cons, List.filterMap_append]
      by_cases hn : n = "__files__"
      · subst hn
        obtain ⟨l, hv, _⟩ := WFE_files h v (List.mem_cons_self _ _)
        subst hv
        have hkey : pyLookup rest "__files__" = none := by
          rw [pyLookup_eq_none]
          exact (by simpa using WFE_nodup h : _ ∧ _).1
        rw [show leafBranch "__files__" (PyVal.vlist l) = l.map fun f => [f] by
            rw [leafBranch]; simp]
        rw [ih (WFE_tail h), filesOf_none hkey]
        rw [show filesOf (("__files__", PyVal.vlist l) :: rest) = l by
            unfold filesOf; simp [pyLookup]]
        rw [List.filterMap_map]
        rw [show List.filterMap (singlePath ∘ fun f => [f]) l =
            List.filterMap (fun f => some f) l from
          List.filterMap_congr (fun a _ => rfl)]
        simp
      · obtain ⟨sub, hv⟩ := WFE_shape h n v (List.mem_cons_self _ _) hn
        subst hv
        rw [show leafBranch n (PyVal.vdict sub) =
            (leavesEntries sub).map fun p => n :: p by
          rw [leafBranch]; simp [hn]]
        rw [show filesOf ((n, PyVal.vdict sub) :: rest) = filesOf rest by
            unfold filesOf; simp [pyLookup, hn]]
        rw [ih (WFE_tail h)]
        rw [show ((leavesEntries sub).map fun p => n :: p).filterMap
            singlePath = [] from ?_]
        · simp
        · rw [List.filterMap_eq_nil_iff]
          intro a ha
          rcases List.mem_map.mp ha with ⟨p, hp, rfl⟩
          cases p with
          | nil => exact absurd hp (nil_not_mem_leaves sub)
          | cons y r => rfl

/-- The multi-segment leaves of a well-formed tree are exactly the
directory pairs (first segment, tail). -/
theorem multis_leaves {es : List (String × PyVal)} (h : WFE es) :
    (leavesEntries es).filterMap multiPath = dirPairsOf es := by
  induction es with
  | nil => simp [leavesEntries_nil, dirPairsOf]
  | cons e rest ih =>
      obtain ⟨n, v⟩ := e
      rw [leavesEntries_cons, List.filterMap_append]
      have hrest := ih (WFE_tail h)
      by_cases hn : n = "__files__"
      · subst hn
        obtain ⟨l, hv, _⟩ := WFE_files h v (List.mem_cons_self _ _)
        subst hv
        rw [show leafBranch "__files__" (PyVal.vlist l) = l.map fun f => [f] by
            rw [leafBranch]; simp]
        rw [show dirPairsOf (("__files__", PyVal.vlist l) :: rest) =
            dirPairsOf rest by unfold dirPairsOf; rw [List.flatMap_cons]; simp]
        rw [hrest]
        rw [show (l.map fun f => [f]).filterMap multiPath = [] from ?_]
        · simp
        · rw [List.filterMap_eq_nil_iff]
          intro a ha
          rcases List.mem_map.mp ha with ⟨p, _, rfl⟩
          rfl
      · obtain ⟨sub, hv⟩ := WFE_shape h n v (List.mem_cons_self _ _) hn
        subst hv
        rw [show leafBranch n (PyVal.vdict sub) =
            (leavesEntries sub).map fun p => n :: p by
          rw [leafBranch]; simp [hn]]
        rw [show dirPairsOf ((n, PyVal.vdict sub) :: rest) =
            ((leavesEntries sub).map fun p => (n, p)) ++ dirPairsOf rest by
          unfold dirPairsOf; rw [List.flatMap_cons]; simp [hn]]
        rw [hrest, List.filterMap_map]
        congr 1
        rw [show List.filterMap (multiPath ∘ fun p => n :: p)
            (leavesEntries sub) =
            List.filterMap (fun p => some (n, p)) (leavesEntries sub) from
          List.filterMap_congr ?_]
        · rw [show (fun p : List String => some (n, p)) =
              some ∘ (fun p => (n, p)) from rfl, List.filterMap_eq_map]
        · intro p hp
          cases p with
          | nil => exact absurd hp (nil_not_mem_leaves sub)
          | cons y r => rfl

/-- A non-empty well-formed tree has at least one leaf. -/
theorem leaves_nonempty {es : List (String × PyVal)} (h : WFE es) :
    es ≠ [] → leavesEntries es ≠ [] := by
  induction h with
  | mk es nodup hfiles hshape hne hrec ih =>
      intro hes
      cases es with
      | nil => exact absurd rfl hes
      | cons e rest =>
          obtain ⟨n, v⟩ := e
          rw [leavesEntries_cons]
          by_cases hn : n = "__files__"
          · subst hn
            obtain ⟨l, hv, hl⟩ := hfiles v (List.mem_cons_self _ _)
            subst hv
            rw [show leafBranch "__files__" (PyVal.vlist l) =
                l.map fun f => [f] by rw [leafBranch]; simp]
            simp [hl]
          · obtain ⟨sub, hv⟩ := hshape n v (List.mem_cons_self _ _) hn
            subst hv
            have hsubne := hne n sub (List.mem_cons_self _ _) hn
            have hlne := ih n sub (List.mem_cons_self _ _) hn hsubne
            rw [show leafBranch n (PyVal.vdict sub) =
                (leavesEntries sub).map fun p => n :: p by
              rw [leafBranch]; simp [hn]]
            simp [hlne]

theorem dirPairs_fst_mem {es : List (String × PyVal)}
    {q : String × List String} (h : q ∈ dirPairsOf es) :
    q.1 ∈ es.map Prod.fst := by
  unfold dirPairsOf at h
  rcases List.mem_flatMap.mp h with ⟨e, he, hq⟩
  obtain ⟨m, v⟩ := e
  cases v with
  | vlist l => simp at hq
  | vdict sub =>
      dsimp only at hq
      by_cases hm : m = "__files__"
      · simp [hm] at hq
      · rw [if_neg hm] at hq
        rcases List.mem_map.mp hq with ⟨p, _, rfl⟩
        exact List.mem_map.mpr ⟨(m, .vdict sub), he, rfl⟩

theorem dirNames_nodup {es : List (String × PyVal)} (h : WFE es) :
    (dirNames es).Nodup := by
  unfold dirNames
  exact (WFE_nodup h).sublist ((List.filter_sublist es).map Prod.fst)

theorem dirPairs_names_iff {es : List (String × PyVal)} (h : WFE es)
    (n : String) :
    n ∈ (dirPairsOf es).map Prod.fst ↔ n ∈ dirNames es := by
  constructor
  · intro hn
    rcases List.mem_map.mp hn with ⟨q, hq, rfl⟩
    unfold dirPairsOf at hq
    rcases List.mem_flatMap.mp hq with ⟨e, he, hqe⟩
    obtain ⟨m, v⟩ := e
    cases v with
    | vlist l => simp at hqe
    | vdict sub =>
        dsimp only at hqe
        by_cases hm : m = "__files__"
        · simp [hm] at hqe
        · rw [if_neg hm] at hqe
          rcases List.mem_map.mp hqe with ⟨p, _, rfl⟩
          unfold dirNames
          exact List.mem_map.mpr ⟨(m, .vdict sub),
            List.mem_filter.mpr ⟨he, by simpa using hm⟩, rfl⟩
  · intro hn
    unfold dirNames at hn
    rcases List.mem_map.mp hn with ⟨e, he, rfl⟩
    obtain ⟨m, v⟩ := e
    obtain ⟨he2, hm⟩ := List.mem_filter.mp he
    have hm' : m ≠ "__files__" := by simpa using hm
    obtain ⟨sub, hv⟩ := WFE_shape h m v he2 hm'
    subst hv
    have hsubne := WFE_sub_ne h m sub he2 hm'
    have hleaves := leaves_nonempty (WFE_sub_wf h m sub he2 hm') hsubne
    obtain ⟨p, hp⟩ := List.exists_mem_of_ne_nil _ hleaves
    refine List.mem_map.mpr ⟨(m, p), ?_, rfl⟩
    unfold dirPairsOf
    refine List.mem_flatMap.mpr ⟨(m, .vdict sub), he2, ?_⟩
    dsimp only
    rw [if_neg hm']
    exact List.mem_map.mpr ⟨p, hp, rfl⟩

/-- Sorted directory names agree between the tree and its leaves. -/
theorem names_sort_eq {es : List (String × PyVal)} (h : WFE es) :
    sortStr ((dirPairsOf es).map Prod.fst).dedup = sortStr (dirNames es) := by
  apply sortStr_congr
  rw [List.perm_ext_iff_of_nodup (List.nodup_dedup _) (dirNames_nodup h)]
  intro n
  rw [List.mem_dedup]
  exact dirPairs_names_iff h n

/-- The group of a directory name recovers the subtree's leaves. -/
theorem group_leaves {es : List (String × PyVal)} (h : WFE es)
    {n : String} {sub : List (String × PyVal)}
    (hlk : pyLookup es n = some (.vdict sub)) (hn : n ≠ "__files__") :
    ((dirPairsOf es).filter (fun q => q.1 = n)).map Prod.snd =
      leavesEntries sub := by
  induction es with
  | nil => simp [pyLookup] at hlk
  | cons e rest ih =>
      obtain ⟨m, v⟩ := e
      have hsplit : dirPairsOf ((m, v) :: rest) =
          (match (m, v) with
           | (n, PyVal.vdict sub) =>
               if n = "__files__" then []
               else (leavesEntries sub).map fun p => (n, p)
           | _ => []) ++ dirPairsOf rest := by
        unfold dirPairsOf; rw [List.flatMap_cons]
      rw [hsplit, List.filter_append, List.map_append]
      by_cases hm : m = n
      · subst hm
        rw [pyLookup] at hlk
        rw [if_pos rfl] at hlk
        injection hlk with hlk
        subst hlk
        have hrestnil :
            (dirPairsOf rest).filter (fun q => q.1 = m) = [] := by
          rw [List.filter_eq_nil_iff]
          intro q hq hq1
          have := dirPairs_fst_mem hq
          have hkeys : m ∉ rest.map Prod.fst :=
            (by simpa using WFE_nodup h : _ ∧ _).1
          exact hkeys (by rwa [show q.1 = m by simpa using hq1] at this)
        rw [hrestnil]
        dsimp only
        rw [if_neg hn]
        rw [show ((leavesEntries sub).map fun p => (m, p)).filter
            (fun q => q.1 = m) = (leavesEntries sub).map fun p => (m, p) by
          rw [List.filter_eq_self]
          intro q hq
          rcases List.mem_map.mp hq with ⟨p, _, rfl⟩
          simp]
        simp [List.map_map]
      · rw [pyLookup] at hlk
        rw [if_neg hm] at hlk
        have hbranch : ((match (m, v) with
            | (n, PyVal.vdict sub) =>
                if n = "__files__" then []
                else (leavesEntries sub).map fun p => (n, p)
            | _ => []) : List (String × List String)).filter
              (fun q => q.1 = n) = [] := by
          cases v with
          | vlist l => simp
          | vdict s2 =>
              dsimp only
              by_cases hmf : m = "__files__"
              · simp [hmf]
              · rw [if_neg hmf]
                rw [List.filter_eq_nil_iff]
                intro q hq hq1
                rcases List.mem_map.mp hq with ⟨p, _, rfl⟩
                exact hm (by simpa using hq1)
        rw [hbranch]
        simp only [List.map_nil, List.nil_append]
        exact ih (WFE_tail h) hlk

/-- `write_tree`'s file block, under well-formedness. -/
theorem filesLines_eq {es : List (String × PyVal)} (h : WFE es) (k : Nat) :
    filesLines es k = (sortStr (filesOf es)).map fun f => (k, f) := by
  unfold filesLines filesOf
  cases hlk : pyLookup es "__files__" with
  | none => rfl
  | some v =>
      cases v with
      | vlist l => rfl
      | vdict sub =>
          obtain ⟨l, hv, _⟩ := WFE_files h _ (pyLookup_mem hlk)
          cases hv

theorem flatMap_congr_mem {α β : Type} {l : List α} {f g : α → List β}
    (h : ∀ a ∈ l, f a = g a) : l.flatMap f = l.flatMap g := by
  induction l with
  | nil => rfl
  | cons a rest ih =>
      rw [List.flatMap_cons, List.flatMap_cons,
        h a (List.mem_cons_self _ _), ih (fun b hb => h b (List.mem_cons_of_mem _ hb))]

theorem pyLookup_of_mem_nodup {es : List (String × PyVal)} {k : String}
    {v : PyVal} (hmem : (k, v) ∈ es) (hnodup : (es.map Prod.fst).Nodup) :
    pyLookup es k = some v := by
  induction es with
  | nil => simp at hmem
  | cons e rest ih =>
      obtain ⟨k', v'⟩ := e
      rcases List.mem_cons.mp hmem with hmem | hmem
      · injection hmem with h1 h2
        subst h1; subst h2
        simp [pyLookup]
      · have hnd : k' ∉ rest.map Prod.fst ∧ (rest.map Prod.fst).Nodup := by
          simpa using hnodup
        have hk : k' ≠ k := by
          intro hke
          subst hke
          exact hnd.1 (List.mem_map.mpr ⟨(k', v), hmem, rfl⟩)
        rw [pyLookup, if_neg hk]
        exact ih hmem hnd.2

/-- **Main rendering lemma.**  On a well-formed tree, `write_tree` renders
exactly the reference rendering of the tree's leaves, at every fuel. -/
theorem writeTreeF_spec (fuel : Nat) :
    ∀ (es : List (String × PyVal)) (k : Nat), WFE es →
      writeTreeF fuel es k = specRenderF fuel (leavesEntries es) k := by
  induction fuel with
  | zero => intro es k _; rfl
  | succ fuel ih =>
      intro es k h
      rw [writeTreeF, specRenderF]
      rw [singles_leaves h, multis_leaves h, filesLines_eq h k,
        names_sort_eq h]
      congr 1
      apply flatMap_congr_mem
      intro n hn
      have hn' : n ∈ dirNames es := (sortStr_perm _).subset hn
      unfold dirNames at hn'
      rcases List.mem_map.mp hn' with ⟨e, he, rfl⟩
      obtain ⟨m, v⟩ := e
      obtain ⟨he2, hm0⟩ := List.mem_filter.mp he
      have hm : m ≠ "__files__" := by simpa using hm0
      obtain ⟨sub, hv⟩ := WFE_shape h m v he2 hm
      subst hv
      have hlk : pyLookup es m = some (.vdict sub) :=
        pyLookup_of_mem_nodup he2 (WFE_nodup h)
      rw [hlk]
      dsimp only
      rw [ih sub (k + 1) (WFE_sub_wf h m sub he2 hm),
        group_leaves h hlk hm]

/-- The reference rendering depends only on the multiset of leaf paths:
sorting happens at render time, so insertion order is irrelevant. -/
theorem specRenderF_perm (fuel : Nat) :
    ∀ {L1 L2 : List (List String)} (k : Nat), L1.Perm L2 →
      specRenderF fuel L1 k = specRenderF fuel L2 k := by
  induction fuel with
  | zero => intros; rfl
  | succ fuel ih =>
      intro L1 L2 k hp
      rw [specRenderF, specRenderF]
      have hdirs : (L1.filterMap multiPath).Perm (L2.filterMap multiPath) :=
        hp.filterMap _
      rw [sortStr_congr (hp.filterMap singlePath),
        sortStr_congr (hdirs.map Prod.fst).dedup]
      congr 1
      apply flatMap_congr_mem
      intro n _
      congr 1
      exact ih (k + 1) ((hdirs.filter _).map _)

/-! ## C3: order-independence of the manifest -/

/-- **C3 (counterexample).**  Two orderings of the same path set need not
produce the same outcome when a directory is named `__files__`: the order
`["x.txt", "__files__/b"]` raises `TypeError` while the reverse order
raises `AttributeError`, so the result of `create_manifest` is not a pure
function of the path set. -/
theorem c3_counterexample :
    (["x.txt", "__files__/b"] : List String).Perm ["__files__/b", "x.txt"] ∧
    createManifestText ["x.txt", "__files__/b"] ≠
      createManifestText ["__files__/b", "x.txt"] := by
  constructor
  · decide
  · decide

/-- **C3 (amended).**  For sentinel-free paths (no non-final segment named
`__files__`), any two orderings of the same paths produce byte-identical
manifest text: insertion order only affects dictionary insertion order,
and rendering sorts both file lists and directory keys. -/
theorem c3_order_invariant (l1 l2 : List String) (hperm : l1.Perm l2)
    (hsent : ∀ p ∈ l1, sentinelFree p) :
    createManifestText l1 = createManifestText l2 := by
  have hsent2 : ∀ p ∈ l2, sentinelFree p := fun p hp =>
    hsent p (hperm.symm.subset hp)
  obtain ⟨es1, hb1, hw1, hl1⟩ := buildFileTree_ok l1 hsent
  obtain ⟨es2, hb2, hw2, hl2⟩ := buildFileTree_ok l2 hsent2
  unfold createManifestText
  rw [hb1, hb2]
  dsimp only
  have hfuel : manifestFuel l1 = manifestFuel l2 := by
    unfold manifestFuel
    congr 1
    exact (hperm.map _).sum_eq
  rw [writeTreeF_spec _ es1 0 hw1, writeTreeF_spec _ es2 0 hw2, hfuel,
    specRenderF_perm (manifestFuel l2) 0
      (hl1.trans ((hperm.map splitSlash).trans hl2.symm))]

/-- Witness for C3: two orderings of `{ "b.txt", "a/x.txt" }` produce the
same manifest text. -/
theorem c3_witness :
    createManifestText ["b.txt", "a/x.txt"] =
      createManifestText ["a/x.txt", "b.txt"] :=
  c3_order_invariant ["b.txt", "a/x.txt"] ["a/x.txt", "b.txt"]
    (by decide) (by decide)

/-! ## Recovering leaf paths from rendered lines -/

theorem recover_nil (stack : List String) : recover stack [] = [] := rfl

/-- `recover` only consults the stack through `take` of the first line's
depth. -/
theorem recover_take {s1 s2 : List String} {d : Nat} {n : String}
    {ls : List (Nat × String)} (h : s1.take d = s2.take d) :
    recover s1 ((d, n) :: ls) = recover s2 ((d, n) :: ls) := by
  cases ls with
  | nil => rw [recover, recover, h]
  | cons l2 rest =>
      obtain ⟨d', n'⟩ := l2
      rw [recover, recover, h]

/-- A line followed by a one-deeper line opens a directory: the name is
pushed on the stack. -/
theorem recover_push {stack : List String} {k : Nat} {n nm : String}
    {t : List (Nat × String)} :
    recover stack ((k, n) :: (k + 1, nm) :: t) =
      recover (stack.take k ++ [n]) ((k + 1, nm) :: t) := by
  have h : recover stack ((k, n) :: (k + 1, nm) :: t) =
      if k + 1 = k + 1 then
        recover (stack.take k ++ [n]) ((k + 1, nm) :: t)
      else (stack.take k ++ [n]) :: recover (stack.take k) ((k + 1, nm) :: t) :=
    rfl
  rw [h, if_pos rfl]

/-- Processing a block of file lines at depth `k`: each is recovered as a
leaf under the current stack. -/
theorem recover_files (fs : List String) :
    ∀ (stack : List String) (k : Nat) (rest : List (Nat × String)),
      stack.length = k → firstDepthLe k rest →
      recover stack ((fs.map fun f => (k, f)) ++ rest) =
        (fs.map fun f => stack ++ [f]) ++ recover stack rest := by
  induction fs with
  | nil => intro stack k rest _ _; simp
  | cons f fs ih =>
      intro stack k rest hstack hrest
      have htake : stack.take k = stack := by
        rw [← hstack]; exact List.take_length stack
      rw [List.map_cons, List.cons_append]
      cases fs with
      | cons f2 fs2 =>
          rw [List.map_cons, List.cons_append, recover, if_neg (by omega),
            htake]
          rw [← List.cons_append, ← List.map_cons]
          rw [ih stack k rest hstack hrest]
          rfl
      | nil =>
          rw [List.map_nil, List.nil_append]
          cases rest with
          | nil =>
              rw [show recover stack [(k, f)] = [stack.take k ++ [f]]
                from rfl, htake]
              simp [recover_nil]
          | cons l2 rest2 =>
              obtain ⟨d', n'⟩ := l2
              have hd' : d' ≤ k := hrest
              rw [recover, if_neg (by omega), htake]
              rfl

/-- Regrouping by first key: concatenating the per-key groups (over the
deduplicated keys) permutes back to the original pair list. -/
theorem grouped_perm (prs : List (String × List String)) :
    (((prs.map Prod.fst).dedup).flatMap fun n =>
      prs.filter fun q => q.1 = n).Perm prs := by
  induction prs with
  | nil => simp
  | cons e rest ih =>
      obtain ⟨m, tl⟩ := e
      have hfiltercons : ∀ n : String,
          ((m, tl) :: rest).filter (fun q => q.1 = n) =
            if m = n then (m, tl) :: rest.filter (fun q => q.1 = n)
            else rest.filter (fun q => q.1 = n) := by
        intro n
        by_cases hmn : m = n
        · subst hmn
          rw [if_pos rfl]
          rw [List.filter_cons]
          simp
        · rw [if_neg hmn]
          rw [List.filter_cons]
          simp [hmn]
      by_cases hm : m ∈ rest.map Prod.fst
      · rw [List.map_cons, List.dedup_cons_of_mem hm]
        obtain ⟨A, B, hAB⟩ := List.append_of_mem (List.mem_dedup.mpr hm)
        have hnodup := List.nodup_dedup (rest.map Prod.fst)
        rw [hAB] at hnodup
        have hmA : m ∉ A := by
          intro hmem
          rcases List.nodup_append.mp hnodup with ⟨_, _, hdisj⟩
          exact hdisj hmem (List.mem_cons_self _ _)
        have hmB : m ∉ B := by
          rcases List.nodup_append.mp hnodup with ⟨_, hnB, _⟩
          exact (List.nodup_cons.mp hnB).1
        have hA : A.flatMap (fun n => ((m, tl) :: rest).filter
            fun q => q.1 = n) =
            A.flatMap (fun n => rest.filter fun q => q.1 = n) := by
          apply flatMap_congr_mem
          intro n hn
          rw [hfiltercons n, if_neg (by intro hmn; subst hmn; exact hmA hn)]
        have hB : B.flatMap (fun n => ((m, tl) :: rest).filter
            fun q => q.1 = n) =
            B.flatMap (fun n => rest.filter fun q => q.1 = n) := by
          apply flatMap_congr_mem
          intro n hn
          rw [hfiltercons n, if_neg (by intro hmn; subst hmn; exact hmB hn)]
        rw [hAB, List.flatMap_append, List.flatMap_cons, hA, hB,
          hfiltercons m, if_pos rfl]
        have hperm := ih
        rw [hAB, List.flatMap_append, List.flatMap_cons] at hperm
        calc A.flatMap (fun n => rest.filter fun q => q.1 = n) ++
              ((m, tl) :: rest.filter (fun q => q.1 = m) ++
                B.flatMap (fun n => rest.filter fun q => q.1 = n))
            ~ (m, tl) :: (A.flatMap (fun n => rest.filter fun q => q.1 = n) ++
                (rest.filter (fun q => q.1 = m) ++
                  B.flatMap (fun n => rest.filter fun q => q.1 = n))) :=
              List.perm_middle
          _ ~ (m, tl) :: rest := hperm.cons _
      · rw [List.map_cons, List.dedup_cons_of_not_mem hm, List.flatMap_cons]
        rw [hfiltercons m, if_pos rfl]
        have hfm : rest.filter (fun q => q.1 = m) = [] := by
          rw [List.filter_eq_nil_iff]
          intro q hq hq1
          exact hm (List.mem_map.mpr ⟨q, hq, by simpa using hq1⟩)
        rw [hfm]
        rw [show ((rest.map Prod.fst).dedup).flatMap
            (fun n => ((m, tl) :: rest).filter fun q => q.1 = n) =
            ((rest.map Prod.fst).dedup).flatMap
              (fun n => rest.filter fun q => q.1 = n) from ?_]
        · exact ih.cons _
        · apply flatMap_congr_mem
          intro n hn
          rw [hfiltercons n]
          rw [if_neg ?_]
          intro hmn
          subst hmn
          exact hm (List.mem_dedup.mp hn)

/-- Partitioning non-empty paths into singletons and longer paths is a
permutation. -/
theorem partition_perm (L : List (List String)) (h : ∀ p ∈ L, p ≠ []) :
    ((L.filterMap singlePath).map (fun f => [f]) ++
      (L.filterMap multiPath).map (fun q => q.1 :: q.2)).Perm L := by
  induction L with
  | nil => simp
  | cons p rest ih =>
      have ihr := ih (fun q hq => h q (List.mem_cons_of_mem _ hq))
      cases p with
      | nil => exact absurd rfl (h [] (List.mem_cons_self _ _))
      | cons x r =>
          cases r with
          | nil =>
              rw [List.filterMap_cons, List.filterMap_cons]
              rw [show singlePath [x] = some x from rfl,
                show multiPath [x] = none from rfl]
              rw [List.map_cons, List.cons_append]
              exact ihr.cons _
          | cons y r2 =>
              rw [List.filterMap_cons, List.filterMap_cons]
              rw [show singlePath (x :: y :: r2) = none from rfl,
                show multiPath (x :: y :: r2) = some (x, y :: r2) from rfl]
              rw [List.map_cons]
              calc (rest.filterMap singlePath).map (fun f => [f]) ++
                    ((x :: y :: r2) ::
                      (rest.filterMap multiPath).map (fun q => q.1 :: q.2))
                  ~ (x :: y :: r2) ::
                      ((rest.filterMap singlePath).map (fun f => [f]) ++
                        (rest.filterMap multiPath).map (fun q => q.1 :: q.2)) :=
                    List.perm_middle
                _ ~ (x :: y :: r2) :: rest := ihr.cons _

theorem perm_flatMap {α β : Type} {l1 l2 : List α} (f : α → List β)
    (h : l1.Perm l2) : (l1.flatMap f).Perm (l2.flatMap f) := by
  induction h with
  | nil => rfl
  | cons x _ ih => simpa using ih.append_left (f x)
  | swap x y l =>
      rw [List.flatMap_cons, List.flatMap_cons, List.flatMap_cons,
        List.flatMap_cons, ← List.append_assoc, ← List.append_assoc]
      exact List.perm_append_comm.append_right _
  | trans _ _ ih1 ih2 => exact ih1.trans ih2

theorem firstDepthLe_mono {j k : Nat} {rest : List (Nat × String)}
    (hjk : j ≤ k) (h : firstDepthLe j rest) : firstDepthLe k rest := by
  cases rest with
  | nil => trivial
  | cons l2 t => obtain ⟨d, m⟩ := l2; exact Nat.le_trans h hjk

/-- The reference rendering of a non-empty list of non-empty paths starts
with a line at the rendering depth. -/
theorem spec_head (fuel : Nat) (L : List (List String)) (k : Nat)
    (hL : L ≠ []) (hne : ∀ p ∈ L, p ≠ []) :
    ∃ nm rest2, specRenderF (fuel + 1) L k = (k, nm) :: rest2 := by
  rw [specRenderF]
  cases hf : sortStr (L.filterMap singlePath) with
  | cons f fs => exact ⟨f, _, rfl⟩
  | nil =>
      have hfe : L.filterMap singlePath = [] := by
        have hp := sortStr_perm (L.filterMap singlePath)
        rw [hf] at hp
        exact (hp.symm.eq_nil)
      obtain ⟨p, hp⟩ := List.exists_mem_of_ne_nil L hL
      have hsp : singlePath p = none := List.filterMap_eq_nil_iff.mp hfe p hp
      cases p with
      | nil => exact absurd rfl (hne [] hp)
      | cons x r =>
          cases r with
          | nil => simp [singlePath] at hsp
          | cons y r2 =>
              have hx : (x, y :: r2) ∈ L.filterMap multiPath :=
                List.mem_filterMap.mpr ⟨x :: y :: r2, hp, rfl⟩
              have hxf : x ∈ ((L.filterMap multiPath).map Prod.fst).dedup :=
                List.mem_dedup.mpr (List.mem_map.mpr ⟨_, hx, rfl⟩)
              cases hd : sortStr (((L.filterMap multiPath).map
                  Prod.fst).dedup) with
              | nil =>
                  exfalso
                  have := (sortStr_perm _).symm.subset hxf
                  rw [hd] at this
                  simp at this
              | cons n ns =>
                  refine ⟨n, specRenderF fuel (((L.filterMap
                    multiPath).filter fun q => q.1 = n).map Prod.snd)
                      (k + 1) ++
                    ns.flatMap (fun n2 => (k, n2) :: specRenderF fuel
                      (((L.filterMap multiPath).filter
                        fun q => q.1 = n2).map Prod.snd) (k + 1)), ?_⟩
                  simp

/-- Processing the rendered directory blocks of one level: each block is
pushed onto the stack, recovered recursively, and popped again. -/
theorem recover_blocks (fuel : Nat)
    (IH : ∀ (L : List (List String)) (k : Nat) (stack : List String)
      (rest : List (Nat × String)),
      (∀ p ∈ L, p ≠ [] ∧ p.length < fuel) → stack.length = k →
      firstDepthLe k rest →
      ∃ out, recover stack (specRenderF fuel L k ++ rest) =
        out ++ recover stack rest ∧ out.Perm (L.map (stack ++ ·))) :
    ∀ (names : List String) (groups : String → List (List String))
      (stack : List String) (k : Nat) (rest : List (Nat × String)),
      (∀ n ∈ names, groups n ≠ [] ∧
        ∀ p ∈ groups n, p ≠ [] ∧ p.length < fuel) →
      stack.length = k → firstDepthLe k rest →
      ∃ out, recover stack
          ((names.flatMap fun n =>
            (k, n) :: specRenderF fuel (groups n) (k + 1)) ++ rest) =
        out ++ recover stack rest ∧
        out.Perm (names.flatMap fun n =>
          (groups n).map (fun p => stack ++ n :: p)) := by
  intro names
  induction names with
  | nil => intro groups stack k rest _ _ _; exact ⟨[], by simp, by simp⟩
  | cons n ns ihn =>
      intro groups stack k rest hg hstack hrest
      obtain ⟨hgne, hgp⟩ := hg n (List.mem_cons_self _ _)
      obtain ⟨p0, hp0⟩ := List.exists_mem_of_ne_nil _ hgne
      have hfuelpos : 1 ≤ fuel := by
        have h1 := (hgp p0 hp0).1
        have h2 := (hgp p0 hp0).2
        cases p0 with
        | nil => exact absurd rfl h1
        | cons a b => omega
      obtain ⟨fuel', rfl⟩ : ∃ fuel', fuel = fuel' + 1 :=
        ⟨fuel - 1, by omega⟩
      obtain ⟨nm, rest2, hhead⟩ :=
        spec_head fuel' (groups n) (k + 1) hgne (fun p hp => (hgp p hp).1)
      have htake : stack.take k = stack := by
        rw [← hstack]; exact List.take_length stack
      have hrest' : firstDepthLe (k + 1)
          ((ns.flatMap fun n2 =>
            (k, n2) :: specRenderF (fuel' + 1) (groups n2) (k + 1)) ++ rest) := by
        cases ns with
        | nil =>
            rw [List.flatMap_nil, List.nil_append]
            exact firstDepthLe_mono (Nat.le_succ k) hrest
        | cons n2 ns2 => exact Nat.le_succ k
      obtain ⟨out1, hrec1, hperm1⟩ :=
        IH (groups n) (k + 1) (stack ++ [n])
          ((ns.flatMap fun n2 =>
            (k, n2) :: specRenderF (fuel' + 1) (groups n2) (k + 1)) ++ rest)
          hgp (by simpa using hstack) hrest'
      obtain ⟨out2, hrec2, hperm2⟩ :=
        ihn groups stack k rest
          (fun n2 hn2 => hg n2 (List.mem_cons_of_mem _ hn2)) hstack hrest
      have hpop : recover (stack ++ [n])
          ((ns.flatMap fun n2 =>
            (k, n2) :: specRenderF (fuel' + 1) (groups n2) (k + 1)) ++ rest) =
          recover stack
          ((ns.flatMap fun n2 =>
            (k, n2) :: specRenderF (fuel' + 1) (groups n2) (k + 1)) ++ rest) := by
        cases hns : (ns.flatMap fun n2 =>
            (k, n2) :: specRenderF (fuel' + 1) (groups n2) (k + 1)) ++ rest with
        | nil => rw [recover_nil, recover_nil]
        | cons l2 t =>
            obtain ⟨d2, m2⟩ := l2
            have hd2 : d2 ≤ k := by
              have hfd : firstDepthLe k ((ns.flatMap fun n2 =>
                  (k, n2) :: specRenderF (fuel' + 1) (groups n2) (k + 1)) ++
                  rest) := by
                cases ns with
                | nil =>
                    rw [List.flatMap_nil, List.nil_append]
                    exact hrest
                | cons n2 ns2 => exact Nat.le_refl k
              rw [hns] at hfd
              exact hfd
            apply recover_take
            rw [List.take_append_of_le_length (by omega)]
      refine ⟨out1 ++ out2, ?_, ?_⟩
      · simp only [List.flatMap_cons, List.cons_append, List.append_assoc]
        rw [hhead, List.cons_append, recover_push, htake,
          ← List.cons_append, ← hhead, hrec1, hpop, hrec2]
      · rw [List.flatMap_cons]
        refine List.Perm.append ?_ hperm2
        have hfun : (fun p => (stack ++ [n]) ++ p) =
            fun p : List String => stack ++ n :: p := by
          funext p
          rw [List.append_assoc]
          rfl
        rw [← hfun]
        exact hperm1

/-- **Main recovery lemma.**  Parsing the reference rendering (followed by
any shallower suffix) recovers exactly the rendered leaf paths, prefixed
by the current stack. -/
theorem recover_spec (fuel : Nat) :
    ∀ (L : List (List String)) (k : Nat) (stack : List String)
      (rest : List (Nat × String)),
      (∀ p ∈ L, p ≠ [] ∧ p.length < fuel) → stack.length = k →
      firstDepthLe k rest →
      ∃ out, recover stack (specRenderF fuel L k ++ rest) =
        out ++ recover stack rest ∧ out.Perm (L.map (stack ++ ·)) := by
  induction fuel with
  | zero =>
      intro L k stack rest hL _ _
      cases L with
      | nil => exact ⟨[], by simp [specRenderF], by simp⟩
      | cons p ps =>
          have := (hL p (List.mem_cons_self _ _)).2
          omega
  | succ fuel ih =>
      intro L k stack rest hL hstack hrest
      have hne : ∀ p ∈ L, p ≠ [] := fun p hp => (hL p hp).1
      rw [specRenderF]
      rw [List.append_assoc]
      have hfd : firstDepthLe k
          (((sortStr ((L.filterMap multiPath).map Prod.fst).dedup).flatMap
            fun n => (k, n) :: specRenderF fuel
              (((L.filterMap multiPath).filter fun q => q.1 = n).map
                Prod.snd) (k + 1)) ++ rest) := by
        cases hns : sortStr ((L.filterMap multiPath).map Prod.fst).dedup with
        | nil => rw [List.flatMap_nil, List.nil_append]; exact hrest
        | cons n2 ns2 => rw [List.flatMap_cons]; exact Nat.le_refl k
      rw [recover_files _ stack k _ hstack hfd]
      have hgroups : ∀ n ∈ sortStr ((L.filterMap multiPath).map
          Prod.fst).dedup,
          ((L.filterMap multiPath).filter fun q => q.1 = n).map Prod.snd ≠ [] ∧
          ∀ p ∈ ((L.filterMap multiPath).filter fun q => q.1 = n).map
            Prod.snd, p ≠ [] ∧ p.length < fuel := by
        intro n hn
        have hn2 : n ∈ ((L.filterMap multiPath).map Prod.fst).dedup :=
          (sortStr_perm _).subset hn
        have hn3 := List.mem_dedup.mp hn2
        rcases List.mem_map.mp hn3 with ⟨q, hq, rfl⟩
        constructor
        · intro hnil
          have : q ∈ (L.filterMap multiPath).filter
              fun q2 => q2.1 = q.1 := by
            rw [List.mem_filter]
            exact ⟨hq, by simp⟩
          rw [show ((L.filterMap multiPath).filter
              fun q2 => q2.1 = q.1) = [] from
            List.map_eq_nil_iff.mp hnil] at this
          simp at this
        · intro p hp
          rcases List.mem_map.mp hp with ⟨q2, hq2, rfl⟩
          have hq2' : q2 ∈ L.filterMap multiPath :=
            (List.mem_filter.mp hq2).1
          rcases List.mem_filterMap.mp hq2' with ⟨porig, hporig, hpm⟩
          cases porig with
          | nil => simp [multiPath] at hpm
          | cons x r =>
              cases r with
              | nil => simp [multiPath] at hpm
              | cons y r2 =>
                  rw [show multiPath (x :: y :: r2) = some (x, y :: r2)
                    from rfl] at hpm
                  injection hpm with hpm
                  subst hpm
                  have hlen := (hL (x :: y :: r2) hporig).2
                  refine ⟨by simp, ?_⟩
                  simp only [List.length_cons] at hlen ⊢
                  omega
      obtain ⟨out2, hrec2, hperm2⟩ :=
        recover_blocks fuel ih
          (sortStr ((L.filterMap multiPath).map Prod.fst).dedup)
          (fun n => ((L.filterMap multiPath).filter
            fun q => q.1 = n).map Prod.snd)
          stack k rest hgroups hstack hrest
      rw [hrec2]
      refine ⟨((sortStr (L.filterMap singlePath)).map fun f =>
        stack ++ [f]) ++ out2, by rw [List.append_assoc], ?_⟩
      refine List.Perm.trans (List.Perm.append_left _ hperm2) ?_
      have hsingles : ((sortStr (L.filterMap singlePath)).map fun f =>
          stack ++ [f]).Perm ((L.filterMap singlePath).map fun f =>
          stack ++ [f]) := (sortStr_perm _).map _
      have hblocks : ((sortStr ((L.filterMap multiPath).map
          Prod.fst).dedup).flatMap fun n =>
          (((L.filterMap multiPath).filter fun q => q.1 = n).map
            Prod.snd).map (fun p => stack ++ n :: p)).Perm
          ((L.filterMap multiPath).map fun q => stack ++ q.1 :: q.2) := by
        have hsort : ((sortStr ((L.filterMap multiPath).map
            Prod.fst).dedup).flatMap fun n =>
            (((L.filterMap multiPath).filter fun q => q.1 = n).map
              Prod.snd).map (fun p => stack ++ n :: p)).Perm
            ((((L.filterMap multiPath).map Prod.fst).dedup).flatMap
              fun n =>
              (((L.filterMap multiPath).filter fun q => q.1 = n).map
                Prod.snd).map (fun p => stack ++ n :: p)) :=
          perm_flatMap _ (sortStr_perm _)
        refine hsort.trans ?_
        have hinner : ∀ n, ((((L.filterMap multiPath).filter
            fun q => q.1 = n).map Prod.snd).map
              (fun p => stack ++ n :: p)) =
            (((L.filterMap multiPath).filter fun q => q.1 = n).map
              fun q => stack ++ q.1 :: q.2) := by
          intro n
          rw [List.map_map]
          apply List.map_congr_left
          intro q hq
          have : q.1 = n := by
            have := (List.mem_filter.mp hq).2
            simpa using this
          simp [Function.comp, this]
        rw [show (fun n => ((((L.filterMap multiPath).filter
            fun q => q.1 = n).map Prod.snd).map
              (fun p => stack ++ n :: p))) =
            (fun n => (((L.filterMap multiPath).filter
              fun q => q.1 = n).map fun q => stack ++ q.1 :: q.2)) from
          funext hinner]
        have hcomm : ((((L.filterMap multiPath).map Prod.fst).dedup).flatMap
            fun n => (((L.filterMap multiPath).filter
              fun q => q.1 = n).map fun q => stack ++ q.1 :: q.2)) =
            (((((L.filterMap multiPath).map Prod.fst).dedup).flatMap
              fun n => ((L.filterMap multiPath).filter
                fun q => q.1 = n)).map fun q => stack ++ q.1 :: q.2) := by
          rw [List.map_flatMap]
        rw [hcomm]
        exact (grouped_perm (L.filterMap multiPath)).map _
      refine List.Perm.trans (List.Perm.append hsingles hblocks) ?_
      have hpart := (partition_perm L hne).map (fun p => stack ++ p)
      rw [List.map_append, List.map_map, List.map_map] at hpart
      refine List.Perm.trans ?_ hpart
      apply List.Perm.append
      · apply List.Perm.of_eq
        apply List.map_congr_left
        intro f _
        simp [Function.comp]
      · apply List.Perm.of_eq
        apply List.map_congr_left
        intro q _
        simp [Function.comp]

/-! ## Text-level encoding and decoding of manifest lines -/

theorem mk_data (s : String) : String.mk s.data = s := by cases s; rfl

theorem splitCh_cons_sep (c : Char) (r : List Char) :
    splitCh c (c :: r) = [] :: splitCh c r := by
  rw [splitCh, if_pos rfl]

theorem splitCh_append (c : Char) (a : List Char) (r : List Char)
    (h : c ∉ a) : splitCh c (a ++ c :: r) = a :: splitCh c r := by
  induction a with
  | nil => exact splitCh_cons_sep c r
  | cons x xs ih =>
      have hx : x ≠ c := fun hxc => h (hxc ▸ List.mem_cons_self x xs)
      rw [List.cons_append, splitCh, if_neg hx,
        ih (fun hm => h (List.mem_cons_of_mem _ hm))]

theorem encodeLines_data (ls : List (Nat × String)) :
    (encodeLines ls).data = ls.flatMap fun dn =>
      List.replicate (4 * dn.1) ' ' ++ dn.2.data ++ ['\n'] := by
  induction ls with
  | nil => rfl
  | cons dn rest ih =>
      obtain ⟨d, n⟩ := dn
      rw [encodeLines, List.flatMap_cons, ← ih]
      rw [String.data_append, String.data_append, String.data_append]
      simp [spaces]

theorem splitCh_encode (ls : List (Nat × String))
    (h : ∀ dn ∈ ls, '\n' ∉ dn.2.data) :
    splitCh '\n' (encodeLines ls).data =
      (ls.map fun dn => List.replicate (4 * dn.1) ' ' ++ dn.2.data) ++
        [[]] := by
  induction ls with
  | nil => rfl
  | cons dn rest ih =>
      obtain ⟨d, n⟩ := dn
      rw [encodeLines_data, List.flatMap_cons]
      rw [List.append_assoc, List.append_assoc, List.singleton_append]
      rw [← List.append_assoc]
      rw [splitCh_append '\n' _ _ ?hno]
      case hno =>
        intro hmem
        rcases List.mem_append.mp hmem with hmem | hmem
        · have := (List.mem_replicate.mp hmem).2
          simp at this
        · exact h (d, n) (List.mem_cons_self _ _) hmem
      rw [← encodeLines_data,
        ih (fun dn2 hdn2 => h dn2 (List.mem_cons_of_mem _ hdn2))]
      rfl

theorem leadCount_replicate_append (m : Nat) (cs : List Char) :
    leadCount (List.replicate m ' ' ++ cs) = m + leadCount cs := by
  induction m with
  | zero => simp
  | succ m ih =>
      rw [List.replicate_succ, List.cons_append, leadCount, if_pos rfl, ih]
      omega

theorem leadCount_eq_zero {cs : List Char} (h : cs.head? ≠ some ' ') :
    leadCount cs = 0 := by
  cases cs with
  | nil => rfl
  | cons c r =>
      rw [leadCount, if_neg ?_]
      intro hc
      exact h (by rw [hc]; rfl)

theorem decodeLine_correct (d : Nat) (n : String)
    (h : n.data.head? ≠ some ' ') :
    decodeLine (List.replicate (4 * d) ' ' ++ n.data) = (d, n) := by
  unfold decodeLine
  rw [leadCount_replicate_append, leadCount_eq_zero h, Nat.add_zero,
    Nat.mul_div_cancel_left d (by norm_num : 0 < 4)]
  have hdrop : List.drop (4 * d) (List.replicate (4 * d) ' ' ++ n.data) =
      n.data := by
    have h2 := List.drop_left (List.replicate (4 * d) ' ') n.data
    rw [List.length_replicate] at h2
    exact h2
  rw [hdrop, mk_data]

/-- Parsing the manifest text of encoded clean lines yields exactly the
recovery of those lines. -/
theorem parseManifest_decode (ls : List (Nat × String))
    (h : ∀ dn ∈ ls, '\n' ∉ dn.2.data ∧ dn.2.data.head? ≠ some ' ') :
    parseManifest ("Repository structure:\n\n" ++ encodeLines ls) =
      recover [] ls := by
  unfold parseManifest
  have hsplit : splitCh '\n' (("Repository structure:\n\n").data ++
      (encodeLines ls).data) =
      "Repository structure:".data :: [] ::
        splitCh '\n' (encodeLines ls).data := by
    rw [show ("Repository structure:\n\n").data =
        "Repository structure:".data ++ ('\n' :: '\n' :: []) from rfl]
    rw [List.append_assoc]
    rw [show ('\n' :: '\n' :: []) ++ (encodeLines ls).data =
        '\n' :: ('\n' :: (encodeLines ls).data) from rfl]
    rw [splitCh_append '\n' _ _ (by decide), splitCh_cons_sep]
  rw [String.data_append, hsplit,
    splitCh_encode ls (fun dn hdn => (h dn hdn).1)]
  rw [show ∀ a b (t : List (List Char)), List.drop 2 (a :: b :: t) = t
    from fun _ _ _ => rfl]
  rw [List.dropLast_concat]
  rw [List.map_map]
  have hid : ∀ dn ∈ ls, (decodeLine ∘ fun dn2 : Nat × String =>
      List.replicate (4 * dn2.1) ' ' ++ dn2.2.data) dn = id dn := by
    intro dn hdn
    have h2 := decodeLine_correct dn.1 dn.2 (h dn hdn).2
    simpa [Function.comp] using h2
  rw [List.map_congr_left hid, List.map_id]

theorem singlePath_eq_some {p : List String} {x : String}
    (h : singlePath p = some x) : p = [x] := by
  cases p with
  | nil => simp [singlePath] at h
  | cons a r =>
      cases r with
      | nil =>
          rw [show singlePath [a] = some a from rfl] at h
          injection h with h
          rw [h]
      | cons b r2 => simp [singlePath] at h

theorem multiPath_eq_some {p : List String} {q : String × List String}
    (h : multiPath p = some q) : p = q.1 :: q.2 := by
  cases p with
  | nil => simp [multiPath] at h
  | cons a r =>
      cases r with
      | nil => simp [multiPath] at h
      | cons b r2 =>
          rw [show multiPath (a :: b :: r2) = some (a, b :: r2) from rfl] at h
          injection h with h
          rw [← h]

/-- Every name printed by the reference rendering is a segment of some
rendered path. -/
theorem spec_names_mem (fuel : Nat) :
    ∀ (L : List (List String)) (k d : Nat) (nm : String),
      (d, nm) ∈ specRenderF fuel L k → ∃ p ∈ L, nm ∈ p := by
  induction fuel with
  | zero => intro L k d nm h; simp [specRenderF] at h
  | succ fuel ih =>
      intro L k d nm h
      rw [specRenderF] at h
      rcases List.mem_append.mp h with h | h
      · rcases List.mem_map.mp h with ⟨f, hf, hfe⟩
        injection hfe with h1 h2
        subst h2
        have hf2 : f ∈ L.filterMap singlePath := (sortStr_perm _).subset hf
        rcases List.mem_filterMap.mp hf2 with ⟨p, hp, hsp⟩
        exact ⟨p, hp, by rw [singlePath_eq_some hsp]; simp⟩
      · rcases List.mem_flatMap.mp h with ⟨n, hn, hmem⟩
        rcases List.mem_cons.mp hmem with hmem | hmem
        · injection hmem with h1 h2
          have hn2 : nm ∈ (L.filterMap multiPath).map Prod.fst := by
            rw [h2]
            exact List.mem_dedup.mp ((sortStr_perm _).subset hn)
          rcases List.mem_map.mp hn2 with ⟨q, hq, hq1⟩
          rcases List.mem_filterMap.mp hq with ⟨p, hp, hmp⟩
          refine ⟨p, hp, ?_⟩
          rw [multiPath_eq_some hmp, hq1]
          exact List.mem_cons_self _ _
        · obtain ⟨p', hp', hnm⟩ := ih _ _ _ _ hmem
          rcases List.mem_map.mp hp' with ⟨q, hq, hqe⟩
          have hq2 : q ∈ L.filterMap multiPath := (List.mem_filter.mp hq).1
          rcases List.mem_filterMap.mp hq2 with ⟨p, hp, hmp⟩
          refine ⟨p, hp, ?_⟩
          rw [multiPath_eq_some hmp]
          rw [← hqe] at hnm
          exact List.mem_cons_of_mem _ hnm

/-- **Round-trip helper.**  For sentinel-free, line-clean paths the
manifest is produced and parsing it recovers exactly the split input
paths (as a permutation — every leaf appears exactly once). -/
theorem manifest_roundtrip (paths : List String)
    (hsent : ∀ p ∈ paths, sentinelFree p)
    (hclean : ∀ p ∈ paths, lineClean p) :
    ∃ text, createManifestText paths = .ok text ∧
      (parseManifest text).Perm (paths.map splitSlash) := by
  obtain ⟨es, hb, hwf, hl⟩ := buildFileTree_ok paths hsent
  have htext : createManifestText paths =
      .ok ("Repository structure:\n\n" ++
        encodeLines (writeTreeF (manifestFuel paths) es 0)) := by
    unfold createManifestText; rw [hb]
  refine ⟨_, htext, ?_⟩
  rw [writeTreeF_spec _ es 0 hwf]
  have hmemL : ∀ p ∈ leavesEntries es, ∃ p0 ∈ paths, p = splitSlash p0 := by
    intro p hp
    have := hl.subset hp
    rcases List.mem_map.mp this with ⟨p0, hp0, rfl⟩
    exact ⟨p0, hp0, rfl⟩
  have hnames : ∀ dn ∈ specRenderF (manifestFuel paths)
      (leavesEntries es) 0, '\n' ∉ dn.2.data ∧ dn.2.data.head? ≠ some ' ' := by
    intro dn hdn
    obtain ⟨d, nm⟩ := dn
    obtain ⟨p, hp, hnm⟩ := spec_names_mem _ _ _ _ _ hdn
    obtain ⟨p0, hp0, rfl⟩ := hmemL p hp
    exact hclean p0 hp0 nm hnm
  rw [parseManifest_decode _ hnames]
  have hcond : ∀ p ∈ leavesEntries es,
      p ≠ [] ∧ p.length < manifestFuel paths := by
    intro p hp
    refine ⟨fun h0 => nil_not_mem_leaves es (h0 ▸ hp), ?_⟩
    obtain ⟨p0, hp0, rfl⟩ := hmemL p hp
    have hle : (splitSlash p0).length ≤
        (paths.map fun p => (splitSlash p).length).sum :=
      List.single_le_sum (fun _ _ => Nat.zero_le _) _
        (List.mem_map.mpr ⟨p0, hp0, rfl⟩)
    unfold manifestFuel
    omega
  obtain ⟨out, hrec, hperm⟩ :=
    recover_spec (manifestFuel paths) (leavesEntries es) 0 [] []
      hcond rfl trivial
  rw [List.append_nil, recover_nil, List.append_nil] at hrec
  rw [hrec]
  refine hperm.trans ?_
  rw [show (leavesEntries es).map (fun x => ([] : List String) ++ x) =
      leavesEntries es by simp]
  exact hl

/-! ## C2: manifest round-trip -/

/-- **C2 (counterexample).**  The round-trip fails for a path with a
non-final `__files__` segment: the manifest for `["__files__/a.txt"]`
renders only the line `__files__` (the sentinel key shadows the
directory), so parsing recovers `{["__files__"]}` instead of
`{["__files__", "a.txt"]}`. -/
theorem c2_counterexample :
    createManifestText ["__files__/a.txt"] =
      .ok "Repository structure:\n\n__files__\n" ∧
    (parseManifest "Repository structure:\n\n__files__\n").toFinset ≠
      ((["__files__/a.txt"] : List String).map splitSlash).toFinset := by
  decide

/-- **C2 (amended).**  For every list of RelativePaths in which no
non-final segment is `__files__`, no segment contains a newline and no
segment starts with a space, the manifest is produced and the set of leaf
paths recoverable from its indentation structure equals the set of split
input paths. -/
theorem c2_roundtrip_sets (paths : List String)
    (hsent : ∀ p ∈ paths, sentinelFree p)
    (hclean : ∀ p ∈ paths, lineClean p) :
    ∃ text, createManifestText paths = .ok text ∧
      (parseManifest text).toFinset = (paths.map splitSlash).toFinset := by
  obtain ⟨text, h1, h2⟩ := manifest_roundtrip paths hsent hclean
  exact ⟨text, h1, List.toFinset_eq_of_perm _ _ h2⟩

/-- Witness for C2: a three-file repository round-trips. -/
theorem c2_witness :
    ∃ text, createManifestText ["README.md", "src/main.go", "src/util.py"] =
      .ok text ∧
      (parseManifest text).toFinset =
        ((["README.md", "src/main.go", "src/util.py"] : List String).map
          splitSlash).toFinset :=
  c2_roundtrip_sets ["README.md", "src/main.go", "src/util.py"]
    (by decide) (by decide)

/-! ## C10: the reserved sentinel key -/

/-- **C10.**  `create_manifest` reserves `__files__`: (1) for input lists
with no non-final `__files__` segment the insertion loop is total;
(2) for such (line-clean) lists the manifest renders every leaf exactly
once (parsing recovers the split paths as a permutation); (3) the path
`__files__/a.txt` alone produces a manifest that misreports the leaf —
only `__files__` is printed and parsing recovers `[["__files__"]]`;
(4) adding an ordinary file at the same level raises `TypeError` when the
file is inserted first, and (5) `AttributeError` when the sentinel
directory is inserted first. -/
theorem c10_sentinel_key_reserved :
    (∀ paths : List String, (∀ p ∈ paths, sentinelFree p) →
      ∃ es, buildFileTree paths = .ok es) ∧
    (∀ paths : List String, (∀ p ∈ paths, sentinelFree p ∧ lineClean p) →
      ∃ text, createManifestText paths = .ok text ∧
        (parseManifest text).Perm (paths.map splitSlash)) ∧
    createManifestText ["__files__/a.txt"] =
      .ok "Repository structure:\n\n__files__\n" ∧
    parseManifest "Repository structure:\n\n__files__\n" = [["__files__"]] ∧
    createManifestText ["x.txt", "__files__/a.txt"] = .error .typeError ∧
    createManifestText ["__files__/a.txt", "x.txt"] =
      .error .attributeError := by
  refine ⟨?_, ?_, by decide, by decide, by decide, by decide⟩
  · intro paths hs
    obtain ⟨es, hb, _, _⟩ := buildFileTree_ok paths hs
    exact ⟨es, hb⟩
  · intro paths h
    exact manifest_roundtrip paths (fun p hp => (h p hp).1)
      (fun p hp => (h p hp).2)

/-- Witness for C10: a sentinel-free list is inserted and rendered
exactly once per leaf. -/
theorem c10_witness :
    ∃ text, createManifestText ["a/b.txt", "c.txt"] = .ok text ∧
      (parseManifest text).Perm
        ((["a/b.txt", "c.txt"] : List String).map splitSlash) :=
  c10_sentinel_key_reserved.2.1 ["a/b.txt", "c.txt"] (by decide)

/-! ## C7: the manifest is built from the input list -/

/-- **C7.**  With a valid root, a creatable output directory and a
sentinel-free, line-clean input list, the flatten operation succeeds,
writes the manifest rendered from the *input* path list (its text is
`createManifestText paths`, computed independently of any read or write
outcome), and every input path — including every path whose per-file
processing failed — appears among the leaf paths recoverable from the
manifest text. -/
theorem c7_manifest_from_input_list (env : FSEnv) (r o : String)
    (paths : List String)
    (h1 : env.pathExists r = true) (h2 : env.isDir r = true)
    (h3 : env.makedirsOk o = true)
    (hsent : ∀ p ∈ paths, sentinelFree p)
    (hclean : ∀ p ∈ paths, lineClean p) :
    ∃ text effs c s,
      createManifestText paths = .ok text ∧
      processRepository env r o none none (some paths) =
        (effs, .ok (c, s, pjoin o "file_manifest.txt")) ∧
      Effect.fileWrite (pjoin o "file_manifest.txt") text ∈ effs ∧
      ∀ p ∈ paths, splitSlash p ∈ parseManifest text := by
  obtain ⟨text, htext, hperm⟩ := manifest_roundtrip paths hsent hclean
  refine ⟨text, _, _, _, htext,
    processRepository_ok env r o none none paths h1 h2 h3 htext, ?_, ?_⟩
  · simp
  · intro p hp
    exact hperm.mem_iff.mpr (List.mem_map.mpr ⟨p, hp, rfl⟩)

/-- Witness for C7: `bad.txt` is unreadable (its processing fails), yet
the run succeeds and `bad.txt` is recoverable from the manifest. -/
theorem c7_witness :
    failsB envOneBad "r" "out" "bad.txt" = true ∧
    ∃ text effs c s,
      createManifestText ["bad.txt", "good.txt"] = .ok text ∧
      processRepository envOneBad "r" "out" none none
          (some ["bad.txt", "good.txt"]) =
        (effs, .ok (c, s, pjoin "out" "file_manifest.txt")) ∧
      Effect.fileWrite (pjoin "out" "file_manifest.txt") text ∈ effs ∧
      ∀ p ∈ (["bad.txt", "good.txt"] : List String),
        splitSlash p ∈ parseManifest text :=
  ⟨by decide,
   c7_manifest_from_input_list envOneBad "r" "out" ["bad.txt", "good.txt"]
     (by decide) (by decide) (by decide) (by decide) (by decide)⟩

/-! ## C8: filename collisions — the final contents of the output
directory -/

theorem dirContents_foldl (p : String) (effs : List Effect) :
    ∀ acc : Option String,
      List.foldl
        (fun acc e =>
          match e with
          | Effect.fileWrite q c => if q = p then some c else acc
          | _ => acc) acc effs =
        match dirContents effs p with
        | some c => some c
        | none => acc := by
  induction effs with
  | nil => intro acc; rfl
  | cons e rest ih =>
      intro acc
      rw [List.foldl_cons]
      rw [ih]
      have hd : dirContents (e :: rest) p =
          match dirContents rest p with
          | some c => some c
          | none =>
              match e with
              | Effect.fileWrite q c => if q = p then some c else none
              | _ => none := by
        unfold dirContents
        rw [List.foldl_cons]
        exact ih _
      rw [hd]
      cases hro : dirContents rest p with
      | none =>
          cases e with
          | fileWrite q c =>
              by_cases hq : q = p
              · simp [hq]
              · simp [hq]
          | mkdir d => simp
          | readAttempt q => simp
      | some c => rfl

theorem dirContents_append (effs1 effs2 : List Effect) (p : String) :
    dirContents (effs1 ++ effs2) p =
      match dirContents effs2 p with
      | some c => some c
      | none => dirContents effs1 p := by
  have h : dirContents (effs1 ++ effs2) p =
      List.foldl
        (fun acc e =>
          match e with
          | Effect.fileWrite q c => if q = p then some c else acc
          | _ => acc) (dirContents effs1 p) effs2 := by
    unfold dirContents
    exact List.foldl_append _ _ _ _
  rw [h, dirContents_foldl]

theorem dirContents_not_written (effs : List Effect) (p : String)
    (h : ∀ c, Effect.fileWrite p c ∉ effs) : dirContents effs p = none := by
  induction effs with
  | nil => rfl
  | cons e rest ih =>
      have htail : ∀ c, Effect.fileWrite p c ∉ rest :=
        fun c hc => h c (List.mem_cons_of_mem _ hc)
      show dirContents ([e] ++ rest) p = none
      rw [dirContents_append, ih htail]
      show dirContents [e] p = none
      cases e with
      | fileWrite q c =>
          have hq : ¬ q = p := by
            intro hqp
            exact h c (by rw [← hqp]; exact List.mem_cons_self _ _)
          show (if q = p then some c else none) = none
          rw [if_neg hq]
      | mkdir d => rfl
      | readAttempt q => rfl

theorem dirContents_cons_mkdir (d : String) (effs : List Effect)
    (p : String) :
    dirContents (Effect.mkdir d :: effs) p = dirContents effs p := by
  show dirContents ([Effect.mkdir d] ++ effs) p = dirContents effs p
  rw [dirContents_append]
  cases hX : dirContents effs p
  · rfl
  · rfl

/-- Joining onto a fixed directory is injective in the file name. -/
theorem pjoin_right_inj {o a b : String} (h : pjoin o a = pjoin o b) :
    a = b := by
  unfold pjoin at h
  have h2 := congrArg String.data h
  simp only [String.data_append] at h2
  exact string_data_inj ((List.append_right_inj _).mp h2)

/-- Every write a loop iteration performs targets the sanitized output
path of its own relative path. -/
theorem perFileEffs_write_target (env : FSEnv) (r o q p c : String)
    (h : Effect.fileWrite p c ∈ perFileEffs env r o q) :
    p = pjoin o (outputFilename q) := by
  unfold perFileEffs at h
  rcases List.mem_cons.mp h with h1 | h2
  · exact absurd h1 (by simp)
  · cases hr : env.readFile (pjoin r q) with
    | none => rw [hr] at h2; simp at h2
    | some content =>
        rw [hr] at h2
        by_cases hw : env.writeOk (pjoin o (outputFilename q)) = true
        · simp only [if_pos hw] at h2
          have h3 := List.mem_singleton.mp h2
          injection h3 with h4 h5
        · simp only [if_neg hw] at h2
          simp at h2

theorem dirContents_flatMap_none (env : FSEnv) (r o : String)
    (qs : List String) (p : String)
    (h : ∀ q ∈ qs, pjoin o (outputFilename q) ≠ p) :
    dirContents (qs.flatMap (perFileEffs env r o)) p = none := by
  apply dirContents_not_written
  intro c hc
  rcases List.mem_flatMap.mp hc with ⟨q, hq, hmem⟩
  exact h q hq (perFileEffs_write_target env r o q p c hmem).symm

theorem dirContents_perFile (env : FSEnv) (r o q content : String)
    (hr : env.readFile (pjoin r q) = some content)
    (hw : env.writeOk (pjoin o (outputFilename q)) = true) :
    dirContents (perFileEffs env r o q) (pjoin o (outputFilename q)) =
      some ("// FILE: " ++ q ++ "\n\n" ++ content) := by
  simp [perFileEffs, dirContents, hr, hw]

/-- **C8 (counterexample).**  The claim's "last writer wins" fails when
the shared output filename is `file_manifest.txt`: the relative paths
`file/manifest.txt` and `file_manifest.txt` are distinct and collide, the
run does not fail, but the final content under that name is the manifest
text written *after* the loop — not the later path's flattened content. -/
theorem c8_counterexample :
    outputFilename "file/manifest.txt" = outputFilename "file_manifest.txt" ∧
    "file/manifest.txt" ≠ "file_manifest.txt" ∧
    dirContents
      (processRepository envBody "r" "out" none none
        (some ["file/manifest.txt", "file_manifest.txt"])).1
      (pjoin "out" (outputFilename "file_manifest.txt")) =
      some "Repository structure:\n\nfile_manifest.txt\nfile\n    manifest.txt\n" ∧
    some ("// FILE: " ++ "file_manifest.txt" ++ "\n\n" ++ "body") ≠
      some "Repository structure:\n\nfile_manifest.txt\nfile\n    manifest.txt\n" := by
  decide

/-- **C8 (amended).**  For an input list `l1 ++ p1 :: l2 ++ p2 :: l3`
where the distinct paths `p1` and `p2` sanitize to the same output
filename, no later path collides with it, the shared name is not
`file_manifest.txt`, both reads and the shared write succeed, and the
manifest renders: the run does not fail on the collision, both writes are
performed, and the output directory afterwards holds the later path's
flattened content under the shared name. -/
theorem c8_collision_overwrite (env : FSEnv) (r o : String)
    (l1 l2 l3 : List String) (p1 p2 : String)
    (h1 : env.pathExists r = true) (h2 : env.isDir r = true)
    (h3 : env.makedirsOk o = true)
    (hcoll : outputFilename p1 = outputFilename p2)
    (hne : p1 ≠ p2)
    (hafter : ∀ q ∈ l3, outputFilename q ≠ outputFilename p2)
    (hmani : outputFilename p2 ≠ "file_manifest.txt")
    (c1 c2 : String)
    (hr1 : env.readFile (pjoin r p1) = some c1)
    (hr2 : env.readFile (pjoin r p2) = some c2)
    (hw : env.writeOk (pjoin o (outputFilename p2)) = true)
    (text : String)
    (hmanitext : createManifestText (l1 ++ p1 :: l2 ++ p2 :: l3) =
      .ok text) :
    ∃ effs c s,
      processRepository env r o none none
          (some (l1 ++ p1 :: l2 ++ p2 :: l3)) =
        (effs, .ok (c, s, pjoin o "file_manifest.txt")) ∧
      Effect.fileWrite (pjoin o (outputFilename p1))
        ("// FILE: " ++ p1 ++ "\n\n" ++ c1) ∈ effs ∧
      Effect.fileWrite (pjoin o (outputFilename p2))
        ("// FILE: " ++ p2 ++ "\n\n" ++ c2) ∈ effs ∧
      dirContents effs (pjoin o (outputFilename p2)) =
        some ("// FILE: " ++ p2 ++ "\n\n" ++ c2) := by
  have hw1 : env.writeOk (pjoin o (outputFilename p1)) = true := by
    rw [hcoll]; exact hw
  have hm1 : Effect.fileWrite (pjoin o (outputFilename p1))
      ("// FILE: " ++ p1 ++ "\n\n" ++ c1) ∈ perFileEffs env r o p1 := by
    simp [perFileEffs, hr1, hw1]
  have hm2 : Effect.fileWrite (pjoin o (outputFilename p2))
      ("// FILE: " ++ p2 ++ "\n\n" ++ c2) ∈ perFileEffs env r o p2 := by
    simp [perFileEffs, hr2, hw]
  have hEq := processRepository_ok env r o none none
    (l1 ++ p1 :: l2 ++ p2 :: l3) h1 h2 h3 hmanitext
  refine ⟨_, _, _, hEq, ?_, ?_, ?_⟩
  · refine List.mem_append_left _ (List.mem_cons_of_mem _ ?_)
    exact List.mem_flatMap.mpr ⟨p1, by simp, hm1⟩
  · refine List.mem_append_left _ (List.mem_cons_of_mem _ ?_)
    exact List.mem_flatMap.mpr ⟨p2, by simp, hm2⟩
  · have hneq : pjoin o "file_manifest.txt" ≠ pjoin o (outputFilename p2) :=
      fun hx => hmani (pjoin_right_inj hx).symm
    have hmanifestW : dirContents
        [Effect.fileWrite (pjoin o "file_manifest.txt") text]
        (pjoin o (outputFilename p2)) = none := by
      show (if pjoin o "file_manifest.txt" = pjoin o (outputFilename p2)
        then some text else none) = none
      rw [if_neg hneq]
    have hl3 : dirContents (l3.flatMap (perFileEffs env r o))
        (pjoin o (outputFilename p2)) = none := by
      apply dirContents_flatMap_none
      intro q hq hx
      exact hafter q hq (pjoin_right_inj hx)
    have hsplit : (l1 ++ p1 :: l2 ++ p2 :: l3).flatMap
        (perFileEffs env r o) =
        ((l1 ++ p1 :: l2).flatMap (perFileEffs env r o)) ++
          (perFileEffs env r o p2 ++ l3.flatMap (perFileEffs env r o)) := by
      rw [List.flatMap_append, List.flatMap_cons]
    have hmid : dirContents
        (perFileEffs env r o p2 ++ l3.flatMap (perFileEffs env r o))
        (pjoin o (outputFilename p2)) =
        some ("// FILE: " ++ p2 ++ "\n\n" ++ c2) := by
      rw [dirContents_append, hl3]
      show dirContents (perFileEffs env r o p2)
        (pjoin o (outputFilename p2)) = _
      exact dirContents_perFile env r o p2 c2 hr2 hw
    rw [dirContents_append, hmanifestW]
    show dirContents
      (Effect.mkdir o ::
        (l1 ++ p1 :: l2 ++ p2 :: l3).flatMap (perFileEffs env r o))
      (pjoin o (outputFilename p2)) = _
    rw [dirContents_cons_mkdir, hsplit, dirContents_append, hmid]

/-- Witness for C8: `a/b.txt` and `a_b.txt` both sanitize to `a_b.txt`;
the run succeeds, both writes happen, and the later path's content is the
one left under `out/a_b.txt`. -/
theorem c8_witness :
    ∃ effs c s,
      processRepository envBody "r" "out" none none
          (some ["a/b.txt", "a_b.txt"]) =
        (effs, .ok (c, s, pjoin "out" "file_manifest.txt")) ∧
      Effect.fileWrite (pjoin "out" (outputFilename "a/b.txt"))
        ("// FILE: " ++ "a/b.txt" ++ "\n\n" ++ "body") ∈ effs ∧
      Effect.fileWrite (pjoin "out" (outputFilename "a_b.txt"))
        ("// FILE: " ++ "a_b.txt" ++ "\n\n" ++ "body") ∈ effs ∧
      dirContents effs (pjoin "out" (outputFilename "a_b.txt")) =
        some ("// FILE: " ++ "a_b.txt" ++ "\n\n" ++ "body") :=
  c8_collision_overwrite envBody "r" "out" [] [] [] "a/b.txt" "a_b.txt"
    (by decide) (by decide) (by decide) (by decide) (by decide)
    (by decide) (by decide) "body" "body" (by decide) (by decide)
    (by decide) "Repository structure:\n\na_b.txt\na\n    b.txt\n"
    (by decide)

/-! Concrete evaluations of the model (sanity checks). -/

example : sanitize_filename "a/b\\c?d" = "a_b_c_d" := by decide

example : createManifestText ["README.md", "src/main.go"] =
    .ok "Repository structure:\n\nREADME.md\nsrc\n    main.go\n" := by decide

example : createManifestText ["__files__/a.txt"] =
    .ok "Repository structure:\n\n__files__\n" := by decide

example : createManifestText ["x.txt", "__files__/a.txt"] =
    .error .typeError := by decide

example : createManifestText ["__files__/a.txt", "x.txt"] =
    .error .attributeError := by decide

example :
    parseManifest "Repository structure:\n\nREADME.md\nsrc\n    main.go\n" =
      [["README.md"], ["src", "main.go"]] := by decide

example :
    (parseManifest "Repository structure:\n\na\na\n    b\n").toFinset =
      ([["a"], ["a", "b"]] : List (List String)).toFinset := by decide
